import Mathlib

/-!
# Verification of the Contilogg map-execution engine

Shallow embedding, in Lean 4, of the map-execution engine of the
`contilogg-system` repository (file `src/server.js`, latest `runMapa`
variant, plus `src/funcoes/consultar.js`).  Browser effects (Playwright
calls) are abstracted by explicit oracles: whether an element attaches,
whether the browser action of a step throws, and the in-flight request
count observed at each instant.  Everything that is pure in the source
(pre-flight validation, filename derivation, PDF signature checking,
the response-interception decision, the step-dispatch control flow and
the polling loop of `quiet`) is translated directly.
-/

namespace Contilogg

/-! ## JavaScript value model

`dados` is a JS object mapping field keys to values.  For the engine the
relevant shapes are: a string, an array (of strings or other values, for
multi-file upload) and "anything else".  A present key maps to `some v`;
an absent key is `none` (the source distinguishes `key in dados` from
`dados[key] === undefined`; a present-but-undefined key is not modelled,
the engine never creates one). -/

inductive JItem where
  | istr (s : String)
  | iother
deriving DecidableEq

inductive JVal where
  | vstr (s : String)
  | varr (l : List JItem)
  | vother
deriving DecidableEq

/-- Translation of `Array.isArray(v) ? v : [v]` as used by the upload validation. -/
def jsToArr : JVal → List JItem
  | .varr l => l
  | .vstr s => [.istr s]
  | .vother => [.iother]

/-- Translation of `typeof f !== 'string' || !fs.existsSync(f)` for one upload entry;
`fsE` is the oracle for `fs.existsSync`. -/
def fileBad (fsE : String → Bool) : JItem → Bool
  | .istr s => !fsE s
  | .iother => true

/-- Display of an upload entry inside the error message
(`${f.path}`); faithful for string entries, which is the only shape a
well-formed caller passes (JS stringification of other values is not
modelled byte-for-byte). -/
def jitemShow : JItem → String
  | .istr s => s
  | .iother => "[valor nao-string]"

/-! ## Map model (`Mapa`, `MapaStep`) -/

inductive JAction where
  | fill
  | upload
  | select
  | click
  | press
  | download
deriving DecidableEq

def actionName : JAction → String
  | .fill => "fill"
  | .upload => "upload"
  | .select => "select"
  | .click => "click"
  | .press => "press"
  | .download => "download"

/-- The `meta` bag of a step; only the behavioural flags the engine
reads are modelled (`meta.resultSelector`, `meta.key`,
`meta.networkTriggered`, `meta.expectedUrl`). -/
structure JMeta where
  resultSelector : Bool := false
  key : Option String := none
  networkTriggered : Bool := false
  expectedUrl : Option String := none
deriving DecidableEq

structure JStep where
  action : JAction
  selector : String
  key : Option String := none
  meta : JMeta := {}
deriving DecidableEq

structure JLogin where
  username : String
  password : String
  submit : String
deriving DecidableEq

structure JLoginInfo where
  usernameValue : String
  passwordValue : String
deriving DecidableEq

/-- A map.  `operacao` is one of `"consultar" | "baixar" | "cadastrar" |
"editar"`; the engine only compares it against `"editar"` (partial
update) and `"baixar"`. -/
structure JMapa where
  operacao : String
  login : Option JLogin := none
  steps : List JStep
  logout : Option String := none

/-! ## Pre-flight validation (`runMapa`, "Valida dados e arquivos")

Direct translation of the validation loop: it walks every step; a step
without a selector, or a `fill`/`upload`/`select` step without a `key`,
throws immediately; a required key absent from `dados` is pushed onto
`absentKeys` (unless `operacao === 'editar'`) and the step's file check
is skipped (`continue`); an `upload` step with a present key pushes
every entry failing the string/existence test onto `absentFiles`.
The JS `!s.action` falsiness check cannot fire in the typed model
(`action` is an enum), and `steps` is a list by construction, so the
`"mapa.steps" ausente` check is not reproduced. -/

def stepNeedsKey (a : JAction) : Bool :=
  a = .fill ∨ a = .upload ∨ a = .select

def validateSteps (dados : String → Option JVal) (allowOptional : Bool)
    (fsE : String → Bool) : List JStep → Except String (List String × List (String × JItem))
  | [] => .ok ([], [])
  | s :: rest =>
    if s.selector = "" then .error "Step invalido (sem selector/acao)"
    else if stepNeedsKey s.action then
      match s.key with
      | none => .error ("Step " ++ actionName s.action ++ " precisa de key (" ++ s.selector ++ ")")
      | some k =>
        match dados k with
        | none =>
          match validateSteps dados allowOptional fsE rest with
          | .error m => .error m
          | .ok (aks, afs) => .ok ((if allowOptional then aks else k :: aks), afs)
        | some v =>
          if s.action = .upload then
            match validateSteps dados allowOptional fsE rest with
            | .error m => .error m
            | .ok (aks, afs) =>
              .ok (aks, ((jsToArr v).filter (fun f => fileBad fsE f)).map (fun f => (k, f)) ++ afs)
          else validateSteps dados allowOptional fsE rest
    else validateSteps dados allowOptional fsE rest

/-- Translation of `[...new Set(absentKeys)]`: deduplication preserving first
occurrences, as a JS `Set` does. -/
def jsSetDedupGo (seen : List String) : List String → List String
  | [] => []
  | k :: ks => if k ∈ seen then jsSetDedupGo seen ks else k :: jsSetDedupGo (k :: seen) ks

def jsSetDedup (l : List String) : List String := jsSetDedupGo [] l

/-- Translation of `Chaves ausentes em "dados": ${[...new Set(absentKeys)].join(', ')}` -/
def chavesMsg (aks : List String) : String :=
  "Chaves ausentes em \"dados\": " ++ String.intercalate ", " (jsSetDedup aks)

/-- Translation of `Arquivo(s) ausentes: ${absentFiles.map(f => `${f.key} -> ${f.path}`).join('; ')}` -/
def arquivosMsg (afs : List (String × JItem)) : String :=
  "Arquivo(s) ausentes: " ++
    String.intercalate "; " (afs.map (fun p => p.1 ++ " -> " ++ jitemShow p.2))

/-- The two aggregate throws after the validation loop: missing keys
first, then missing files. -/
def validateMapa (dados : String → Option JVal) (allowOptional : Bool)
    (fsE : String → Bool) (steps : List JStep) : Except String Unit :=
  match validateSteps dados allowOptional fsE steps with
  | .error m => .error m
  | .ok (aks, afs) =>
    if aks ≠ [] then .error (chavesMsg aks)
    else if afs ≠ [] then .error (arquivosMsg afs)
    else .ok ()

/-- Everything `runMapa` does before `chromium.launchPersistentContext`:
the `url` falsiness check, the login-selectors / `loginInfo` checks, and
the data/file validation above, in source order. -/
def preflightCheck (url : String) (li : Option JLoginInfo) (dados : String → Option JVal)
    (fsE : String → Bool) (mapa : JMapa) : Except String Unit :=
  if url = "" then .error "\"url\" e obrigatorio"
  else
    match mapa.login with
    | some lg =>
      if lg.username = "" ∨ lg.password = "" ∨ lg.submit = "" then
        .error "Mapa login incompleto"
      else
        match li with
        | none => .error "\"loginInfo\" ausente ou incompleto"
        | some info =>
          if info.usernameValue = "" ∨ info.passwordValue = "" then
            .error "\"loginInfo\" ausente ou incompleto"
          else validateMapa dados (mapa.operacao = "editar") fsE mapa.steps
    | none => validateMapa dados (mapa.operacao = "editar") fsE mapa.steps

/-! ## Network activity tracker

The tracker keeps `inflight : Map request → timestamp`.  `inflightCount`
first deletes every entry older than `longPollCutoffMs` (default 2000 in
the latest variant) and returns the remaining size.  `quiet(deadline)`
polls every 40 ms: it returns as soon as the count reads zero, or as
soon as a nonzero count has been unchanged for at least 300 ms, or once
`deadline` (default `maxQuietMs = 1200`) has elapsed; it has no throwing
path.  Time is modelled discretely: the loop observes the count at
elapsed instants 0, 40, 80, … ms. -/

def longPollCutoffMsDefault : Nat := 2000

def maxQuietMsDefault : Nat := 1200

/-- An in-flight entry is a pair (request id, insertion timestamp). -/
def purgeInflight (cutoff now : Nat) (l : List (Nat × Nat)) : List (Nat × Nat) :=
  l.filter (fun p => decide (now - p.2 ≤ cutoff))

/-- Translation of `inflightCount()`: purge long-poll entries, then return the size. -/
def inflightCount (cutoff now : Nat) (l : List (Nat × Nat)) : Nat :=
  (purgeInflight cutoff now l).length

inductive QReason where
  | zero
  | stable
  | deadlineHit
  | fuelOut
deriving DecidableEq

/-- One translation of the `while` loop of `quiet`; `cnt u` is the value
`inflightCount()` reads at elapsed time `u`; the three state arguments
are the elapsed time and the loop variables `lastCount` and
`lastChange`.  The fuel argument only bounds recursion; `quietFuel`
below always suffices (proved in the C6 theorem), so `.fuelOut` is
unreachable. -/
def quietGo (cnt : Nat → Nat) (deadline : Nat) : Nat → Nat → Nat → Nat → Nat × QReason
  | 0, t, _, _ => if deadline ≤ t then (t, .deadlineHit) else (t, .fuelOut)
  | fuel + 1, t, lastCount, lastChange =>
    if deadline ≤ t then (t, .deadlineHit)
    else if cnt t = 0 then (t, .zero)
    else
      let lc := if cnt t ≠ lastCount then cnt t else lastCount
      let lch := if cnt t ≠ lastCount then t else lastChange
      if 300 ≤ t - lch then (t, .stable)
      else quietGo cnt deadline fuel (t + 40) lc lch

def quietFuel (deadline : Nat) : Nat := deadline / 40 + 1

/-- Translation of `quiet(deadline)`: returns the elapsed time at which the function
resolves, together with the reason.  Initialisation mirrors the source:
`start = lastChange = now`, `lastCount = inflightCount()`. -/
def quiet (cnt : Nat → Nat) (deadline : Nat) : Nat × QReason :=
  quietGo cnt deadline (quietFuel deadline) 0 (cnt 0) 0

/-! ## PDF helpers (`isPdfBuffer`, `ensurePdfName`) -/

/-- The five magic bytes `%PDF-`. -/
def pdfMagic : List Nat := [0x25, 0x50, 0x44, 0x46, 0x2D]

/-- Translation of `isPdfBuffer`: false for buffers shorter than five bytes, else
compare the first five bytes against `%PDF-` (the JS code decodes the
slice and compares with the five-character string; on byte buffers that
is exactly a byte-level comparison, and the decode cannot throw). -/
def isPdfBuffer (buf : List Nat) : Bool :=
  if buf.length < 5 then false
  else decide (buf.take 5 = pdfMagic)

/-- JS `a || b` on strings/optional strings: empty string and absent
value are falsy. -/
def jsOrS (a : Option String) (b : String) : String :=
  match a with
  | some s => if s = "" then b else s
  | none => b

/-- Substring test (`String.prototype.includes`). -/
def containsSub (s pat : String) : Bool :=
  s.data.tails.any (fun t => pat.data.isPrefixOf t)

/-- Translation of `name.replace(/["']/g, '')` (34 and 39 are the code points of the
double and single quote). -/
def stripQuotes (s : String) : String :=
  ⟨s.data.filter (fun c => !(c == Char.ofNat 34 || c == Char.ofNat 39))⟩

def isJsWs (c : Char) : Bool :=
  c == Char.ofNat 32 || c == Char.ofNat 9 || c == Char.ofNat 10 || c == Char.ofNat 13

/-- Translation of `String.prototype.trim` (modelled over the common whitespace
characters). -/
def jsTrim (s : String) : String :=
  ⟨((s.data.dropWhile isJsWs).reverse.dropWhile isJsWs).reverse⟩

/-- Translation of `/\.pdf$/i.test(name)`: case-insensitive `.pdf` suffix test. -/
def pdfTest (s : String) : Bool :=
  ".pdf".data.isSuffixOf (s.data.map Char.toLower)

/-- ASCII lowercasing (`toLowerCase()`); the content types and names the
engine compares are ASCII. -/
def lowerStr (s : String) : String := ⟨s.data.map Char.toLower⟩

/-- Splitting on a single-character separator (all the separators the
engine splits on — `?`, `#`, `&`, `=`, `/` — are single characters). -/
def splitOnChar (c : Char) : List Char → List (List Char)
  | [] => [[]]
  | x :: xs =>
    if x = c then [] :: splitOnChar c xs
    else
      match splitOnChar c xs with
      | [] => [[x]]
      | y :: ys => (x :: y) :: ys

def splitStr (c : Char) (s : String) : List String :=
  (splitOnChar c s.data).map (fun l => ⟨l⟩)

/-- The query portion of a URL: everything after the first `?`, with any
fragment removed — this is what `new URL(resUrl, 'http://dummy').searchParams`
parses (percent-decoding is not modelled; the engine's callers never
reach this branch, see `ensurePdfName`'s call sites). -/
def queryString (u : String) : String :=
  match splitStr '?' ((splitStr '#' u).headD "") with
  | [] => ""
  | _ :: rest => String.intercalate "?" rest

def queryPairs (q : String) : List (String × String) :=
  (splitStr '&' q).map (fun kv =>
    match splitStr '=' kv with
    | [] => ("", "")
    | k :: vs => (k, String.intercalate "=" vs))

/-- Translation of `searchParams.get(k)` (first match wins). -/
def searchParamsGet (u k : String) : Option String :=
  ((queryPairs (queryString u)).find? (fun p => p.1 == k)).map Prod.snd

/-- The part of a URL before the first `?` (`resUrl.split('?')[0]`). -/
def beforeQuery (u : String) : String := (splitStr '?' u).headD ""

/-- Translation of `noQuery.split('/').pop()`. -/
def lastSegment (u : String) : String := (splitStr '/' (beforeQuery u)).getLastD ""

/-- Final quote-stripping, trimming and `.pdf`-forcing applied to the
derived name. -/
def finishName (n : String) : String :=
  let m := jsTrim (stripQuotes n)
  if pdfTest m then m else m ++ ".pdf"

/-- Translation of `ensurePdfName(filename, resUrl = '')`, translated clause by clause.
A JS `undefined` first argument is passed as `""` (`filename || ''`). -/
def ensurePdfName (filename : String) (resUrl : String) : String :=
  let name := filename
  let name :=
    if name = "" ∧ resUrl ≠ "" then
      let fromQS := jsOrS (searchParamsGet resUrl "filename")
        (jsOrS (searchParamsGet resUrl "fileName") (jsOrS (searchParamsGet resUrl "download") ""))
      if fromQS ≠ "" then fromQS else name
    else name
  let name :=
    if name = "" then
      let seg := lastSegment resUrl
      if seg = "" then "document.pdf" else seg
    else name
  finishName name

/-- The filename actually passed at the download call sites:
`ensurePdfName(desiredFilename || dl.suggestedFilename())`
(the `resUrl` parameter is never supplied there). -/
def downloadName (desired : Option String) (suggested : String) : String :=
  ensurePdfName (jsOrS desired suggested) ""

/-! ## Download-capture interception rule (`routeHandler`)

The pure decision taken by the temporary `context.route('**/*', ...)`
handler, given the fetched response: if a download already happened the
route continues; otherwise the response is rewritten (fulfilled with the
same status and body and a forced `Content-Disposition: attachment`
header) exactly when the lowercased content type contains
`application/pdf` and the body passes `isPdfBuffer`; every other
response is continued unmodified. -/

inductive RouteAction where
  | passThrough
  | fulfill (status : Nat) (headers : List (String × String)) (body : List Nat)
deriving DecidableEq

/-- Translation of `headers['content-type'] || headers['Content-Type'] || ''`, lowercased. -/
def contentTypeOf (hs : List (String × String)) : String :=
  lowerStr (jsOrS (hs.lookup "content-type") (jsOrS (hs.lookup "Content-Type") ""))

/-- Translation of `{ ...headers, 'Content-Disposition': v }`: the spread keeps every
original header, overriding an existing `Content-Disposition` in place
and appending it otherwise. -/
def setHeader (hs : List (String × String)) (k v : String) : List (String × String) :=
  if hs.any (fun p => p.1 == k) then
    hs.map (fun p => if p.1 == k then (k, v) else p)
  else hs ++ [(k, v)]

def attachmentDisposition : String := "attachment; filename=\"document.pdf\""

def routeHandler (downloadedOnce : Bool) (status : Nat)
    (headers : List (String × String)) (body : List Nat) : RouteAction :=
  if downloadedOnce then .passThrough
  else if containsSub (contentTypeOf headers) "application/pdf" then
    if isPdfBuffer body then
      .fulfill status (setHeader headers "Content-Disposition" attachmentDisposition) body
    else .passThrough
  else .passThrough

/-! ## The step interpreter (the `for` loop over `mapa.steps`)

The loop is translated as a recursive function over the remaining step
list, carrying the absolute index `i`.  Browser interactions are
abstracted by two oracles:

* `att j` — whether the locator of step `j` attaches within
  `resultWaitMs` when probed by the result-selector branch;
* `stepErr i` — `none` when the browser actions of step `i` (waits,
  click, fill/type, selectOption, setInputFiles, download machinery)
  complete, `some msg` when one of them throws `msg`.  The best-effort
  waits (`expectedUrl`, `quiet`, the post-combo race) are wrapped in
  `catch`/`.catch(() => {})` in the source and cannot throw, so one
  oracle per step suffices; the latest variant's `quiet` has no
  rejection path (see `quietGo`).

The interpreter additionally records a ghost trace of events so that
theorems can speak about which steps were executed. -/

inductive Ev where
  | acted (i : Nat)
  | combo (i : Nat)
  | skipped (i : Nat) (both : Bool)
  | probe (j : Nat) (found : Bool)
deriving DecidableEq

inductive StepsResult where
  | done (rf : Option Bool)
  | threw (i : Nat) (msg : String)
deriving DecidableEq

/-- Translation of `` throw new Error(`dados["${key}"] ausente`) `` (a JS `undefined`
key would interpolate as the string `undefined`; validation rules that
shape out before the loop runs). -/
def missingDadosMsg (k : Option String) : String :=
  "dados[\"" ++ k.getD "undefined" ++ "\"] ausente"

/-- The inner `for (let j = i; ...)` loop of the result-selector branch:
probe each consecutive `resultSelector` step; a successful attach sets
`resultFound = true` and breaks; a failed attach sets it to `false` and
continues; a non-`resultSelector` step (or the end of the list) breaks,
leaving the accumulator. -/
def probeGroup (att : Nat → Bool) : Nat → List JStep → Option Bool → List Ev × Option Bool
  | _, [], rf => ([], rf)
  | j, st :: rest, rf =>
    if st.meta.resultSelector then
      if att j then ([Ev.probe j true], some true)
      else
        let r := probeGroup att (j + 1) rest (some false)
        (Ev.probe j false :: r.1, r.2)
    else ([], rf)

/-- The step loop from absolute index `i` with remaining steps `l`
(invariant of the callers: `l = steps.drop i`).  Mirrors the source: the
`resultSelector` check precedes the `switch (action)`; a `fill` whose
immediate successor is a `press` on the identical selector is executed
as one combined `typeHuman` interaction and the loop index advances by
two (also on the `editar` skip path); `upload`/`select` skip or throw on
an absent key; `click`/`press`/`download` have no data dependency. -/
def runStepsAux (dados : String → Option JVal) (allowOptional : Bool)
    (stepErr : Nat → Option String) (att : Nat → Bool) :
    Nat → List JStep → List Ev × StepsResult
  | _, [] => ([], .done none)
  | i, st :: rest =>
    if st.meta.resultSelector then
      let r := probeGroup att i (st :: rest) none
      (r.1, .done r.2)
    else
      match st.action with
      | .fill =>
        match rest with
        | nx :: rest' =>
          if nx.action = JAction.press ∧ nx.selector = st.selector then
            match st.key.bind dados with
            | none =>
              if allowOptional then
                let r := runStepsAux dados allowOptional stepErr att (i + 2) rest'
                (Ev.skipped i true :: r.1, r.2)
              else ([], .threw i (missingDadosMsg st.key))
            | some _ =>
              match stepErr i with
              | some m => ([], .threw i m)
              | none =>
                let r := runStepsAux dados allowOptional stepErr att (i + 2) rest'
                (Ev.combo i :: r.1, r.2)
          else
            match st.key.bind dados with
            | none =>
              if allowOptional then
                let r := runStepsAux dados allowOptional stepErr att (i + 1) (nx :: rest')
                (Ev.skipped i false :: r.1, r.2)
              else ([], .threw i (missingDadosMsg st.key))
            | some _ =>
              match stepErr i with
              | some m => ([], .threw i m)
              | none =>
                let r := runStepsAux dados allowOptional stepErr att (i + 1) (nx :: rest')
                (Ev.acted i :: r.1, r.2)
        | [] =>
          match st.key.bind dados with
          | none =>
            if allowOptional then ([Ev.skipped i false], .done none)
            else ([], .threw i (missingDadosMsg st.key))
          | some _ =>
            match stepErr i with
            | some m => ([], .threw i m)
            | none => ([Ev.acted i], .done none)
      | .upload =>
        match st.key.bind dados with
        | none =>
          if allowOptional then
            let r := runStepsAux dados allowOptional stepErr att (i + 1) rest
            (Ev.skipped i false :: r.1, r.2)
          else ([], .threw i (missingDadosMsg st.key))
        | some _ =>
          match stepErr i with
          | some m => ([], .threw i m)
          | none =>
            let r := runStepsAux dados allowOptional stepErr att (i + 1) rest
            (Ev.acted i :: r.1, r.2)
      | .select =>
        match st.key.bind dados with
        | none =>
          if allowOptional then
            let r := runStepsAux dados allowOptional stepErr att (i + 1) rest
            (Ev.skipped i false :: r.1, r.2)
          else ([], .threw i (missingDadosMsg st.key))
        | some _ =>
          match stepErr i with
          | some m => ([], .threw i m)
          | none =>
            let r := runStepsAux dados allowOptional stepErr att (i + 1) rest
            (Ev.acted i :: r.1, r.2)
      | .click =>
        match stepErr i with
        | some m => ([], .threw i m)
        | none =>
          let r := runStepsAux dados allowOptional stepErr att (i + 1) rest
          (Ev.acted i :: r.1, r.2)
      | .press =>
        match stepErr i with
        | some m => ([], .threw i m)
        | none =>
          let r := runStepsAux dados allowOptional stepErr att (i + 1) rest
          (Ev.acted i :: r.1, r.2)
      | .download =>
        match stepErr i with
        | some m => ([], .threw i m)
        | none =>
          let r := runStepsAux dados allowOptional stepErr att (i + 1) rest
          (Ev.acted i :: r.1, r.2)

/-! ## Session lifecycle (`runMapa` top level, `consultar`) -/

/-- Oracles for everything the browser decides. -/
structure Oracles where
  fsExists : String → Bool
  gotoErr : Option String := none
  loginErr : Option String := none
  stepErr : Nat → Option String
  att : Nat → Bool
  logoutErr : Option String := none
  closeErr : Option String := none

/-- Ghost record of the session lifecycle: whether
`chromium.launchPersistentContext` was invoked, whether the logout
sub-protocol was attempted (and which error it swallowed, if any),
whether `closeAll` ran (and which error `context.close()` raised into
its `catch {}`), and the interpreter's event trace. -/
structure RunLog where
  launched : Bool
  logoutAttempted : Bool
  logoutSwallowed : Option String
  closeCalled : Bool
  closeSwallowed : Option String
  trace : List Ev
deriving DecidableEq

/-- Translation of `runMapa` (latest variant): pre-flight checks, then launch, then the
`try { goto; login; steps } catch (err) { caughtError = err } finally
{ logout best-effort; closeAll } ; if (caughtError) throw; return`.
The returned value is the engine's `resultFound` (`downloadedPath` is
not modelled; no claim depends on it). -/
def runMapa (url : String) (li : Option JLoginInfo) (dados : String → Option JVal)
    (mapa : JMapa) (o : Oracles) : Except String (Option Bool) × RunLog :=
  match preflightCheck url li dados o.fsExists mapa with
  | .error m => (.error m, ⟨false, false, none, false, none, []⟩)
  | .ok _ =>
    let body : List Ev × Except String (Option Bool) :=
      match o.gotoErr with
      | some m => ([], .error m)
      | none =>
        match mapa.login, o.loginErr with
        | some _, some m => ([], .error m)
        | _, _ =>
          match runStepsAux dados (mapa.operacao = "editar") o.stepErr o.att 0 mapa.steps with
          | (t, .done rf) => (t, .ok rf)
          | (t, .threw _ m) => (t, .error m)
    (body.2,
      ⟨true, mapa.logout.isSome,
        (if mapa.logout.isSome then o.logoutErr else none),
        true, o.closeErr, body.1⟩)

/-- JS `!!x` on the three-valued `resultFound`. -/
def jsDoubleNeg (rf : Option Bool) : Bool :=
  match rf with
  | some b => b
  | none => false

/-- Translation of `consultar`: run the map and coerce `resultFound` with `!!`. -/
def consultar (url : String) (li : Option JLoginInfo) (dados : String → Option JVal)
    (mapa : JMapa) (o : Oracles) : Except String Bool :=
  match (runMapa url li dados mapa o).1 with
  | .ok rf => .ok (jsDoubleNeg rf)
  | .error m => .error m

/-! ## Specification-side definitions

The following definitions formalise the *claims'* wording (maximal
contiguous probe group, probes attempted in sequence stopping at the
first success, group membership by index) independently of the
interpreter, so that the theorems relate the translated code to them. -/

/-- Length of the contiguous `resultSelector` prefix of `l`. -/
def grpLen (l : List JStep) : Nat :=
  (l.takeWhile (fun s => s.meta.resultSelector)).length

/-- Whether step `j` of `steps` carries `meta.resultSelector === true`. -/
def rsAt (steps : List JStep) (j : Nat) : Bool :=
  match steps.get? j with
  | some s => s.meta.resultSelector
  | none => false

/-- Index `g` starts the (first) contiguous group of result-probe steps. -/
def groupStartAt (steps : List JStep) (g : Nat) : Prop :=
  rsAt steps g = true ∧ ∀ j, j < g → rsAt steps j = false

/-- Length of the contiguous probe group starting at index `g`. -/
def grpLenAt (steps : List JStep) (g : Nat) : Nat := grpLen (steps.drop g)

/-- Predicate "at least one locator among the `n` group members starting at `g`
attaches". -/
def anyAtt (att : Nat → Bool) : Nat → Nat → Bool
  | _, 0 => false
  | g, n + 1 => att g || anyAtt att (g + 1) n

/-- The probe trace the claim describes: each group member probed in
sequence, stopping at the first success. -/
def spanTrace (att : Nat → Bool) : Nat → Nat → List Ev
  | _, 0 => []
  | g, n + 1 =>
    if att g then [Ev.probe g true]
    else Ev.probe g false :: spanTrace att (g + 1) n

/-! ## The `quiet` contract (claim C6) -/

/-- Postcondition of one `quiet(deadline)` call observing counts `cnt`:
the loop always terminates within one 40 ms poll past the deadline and
never errors (the artificial `.fuelOut` outcome is unreachable); a
`.zero` return happens before the deadline with a zero count; a
`.stable` return happens before the deadline with a nonzero count that
has been unchanged at every poll throughout a ≥ 300 ms window; a
`.deadlineHit` return happens only once the deadline has elapsed; and no
earlier poll ever saw a zero count (the loop returns at the first
opportunity). -/
def QuietPost (cnt : Nat → Nat) (deadline : Nat) (p : Nat × QReason) : Prop :=
  p.2 ≠ QReason.fuelOut
  ∧ p.1 < deadline + 40
  ∧ (p.2 = QReason.zero → cnt p.1 = 0 ∧ p.1 < deadline)
  ∧ (p.2 = QReason.stable → cnt p.1 ≠ 0 ∧ p.1 < deadline ∧
      ∃ t0, t0 + 300 ≤ p.1 ∧ ∀ u, u % 40 = 0 → t0 ≤ u → u ≤ p.1 → cnt u = cnt p.1)
  ∧ (p.2 = QReason.deadlineHit → deadline ≤ p.1)
  ∧ (∀ u, u % 40 = 0 → u < p.1 → cnt u ≠ 0)

lemma quietGo_sound (cnt : Nat → Nat) (deadline : Nat) :
    ∀ fuel t lastCount lastChange, t % 40 = 0 → lastChange % 40 = 0 → lastChange ≤ t →
      t < deadline + 40 →
      (∀ u, u % 40 = 0 → lastChange ≤ u → u < t → cnt u = lastCount) →
      (∀ u, u % 40 = 0 → u < t → cnt u ≠ 0) →
      deadline ≤ t + 40 * fuel →
      QuietPost cnt deadline (quietGo cnt deadline fuel t lastCount lastChange) := by
  intro fuel
  induction fuel with
  | zero =>
    intro t lastCount lastChange ht hlm hle hlt hinv hnz hfuel
    have hd : deadline ≤ t := by omega
    simp only [quietGo, if_pos hd, QuietPost]
    exact ⟨by simp, by omega, by simp, by simp, fun _ => hd, hnz⟩
  | succ fuel ih =>
    intro t lastCount lastChange ht hlm hle hlt hinv hnz hfuel
    by_cases hd : deadline ≤ t
    · simp only [quietGo, if_pos hd, QuietPost]
      exact ⟨by simp, by omega, by simp, by simp, fun _ => hd, hnz⟩
    · by_cases hz : cnt t = 0
      · simp only [quietGo, if_neg hd, if_pos hz, QuietPost]
        exact ⟨by simp, by omega, fun _ => ⟨hz, by omega⟩, by simp, by simp, hnz⟩
      · simp only [quietGo, if_neg hd, if_neg hz]
        by_cases hchg : cnt t = lastCount
        · have e1 : (if cnt t ≠ lastCount then cnt t else lastCount) = lastCount := by
            simp [hchg]
          have e2 : (if cnt t ≠ lastCount then t else lastChange) = lastChange := by
            simp [hchg]
          simp only [e1, e2]
          by_cases hstab : 300 ≤ t - lastChange
          · simp only [if_pos hstab, QuietPost]
            refine ⟨by simp, by omega, by simp, fun _ => ⟨hz, by omega, lastChange, by omega,
              ?_⟩, by simp, hnz⟩
            intro u hu h1 h2
            rcases Nat.lt_or_ge u t with h | h
            · rw [hinv u hu h1 h, hchg]
            · have : u = t := by omega
              subst this; rfl
          · simp only [if_neg hstab]
            apply ih (t + 40) lastCount lastChange (by omega) hlm (by omega) (by omega)
            · intro u hu h1 h2
              rcases Nat.lt_or_ge u t with h | h
              · exact hinv u hu h1 h
              · have : u = t := by omega
                subst this; exact hchg
            · intro u hu h1
              rcases Nat.lt_or_ge u t with h | h
              · exact hnz u hu h
              · have : u = t := by omega
                subst this; exact hz
            · omega
        · have e1 : (if cnt t ≠ lastCount then cnt t else lastCount) = cnt t := by
            simp [hchg]
          have e2 : (if cnt t ≠ lastCount then t else lastChange) = t := by
            simp [hchg]
          simp only [e1, e2]
          have hstab : ¬ (300 ≤ t - t) := by omega
          simp only [if_neg hstab]
          apply ih (t + 40) (cnt t) t (by omega) ht (by omega) (by omega)
          · intro u hu h1 h2
            have : u = t := by omega
            subst this; rfl
          · intro u hu h1
            rcases Nat.lt_or_ge u t with h | h
            · exact hnz u hu h
            · have : u = t := by omega
              subst this; exact hz
          · omega

/-- C6 (amended): `quiet(deadline)` returns at the first 40 ms poll at
which the in-flight count reads zero (immediately, with no stability
window), or at which a nonzero in-flight count has been unchanged for
the 300 ms stability window, or once `deadline` elapses, whichever
happens first; it never throws on any path (the loop has no rejection
and `.fuelOut` is excluded), so a caller that needs to know whether
quiescence was reached must inspect the count after awaiting. -/
theorem c6_quiet_contract (cnt : Nat → Nat) (deadline : Nat) :
    QuietPost cnt deadline (quiet cnt deadline) := by
  apply quietGo_sound cnt deadline (quietFuel deadline) 0 (cnt 0) 0
  · rfl
  · rfl
  · exact Nat.le_refl 0
  · omega
  · intro u _ _ h; omega
  · intro u _ h; omega
  · show deadline ≤ 0 + 40 * (deadline / 40 + 1)
    omega

/-- C6 witness: the contract evaluated at a concrete constant count and
deadline. -/
theorem c6_quiet_contract_witness :
    QuietPost (fun _ => 5) 1200 (quiet (fun _ => 5) 1200) :=
  c6_quiet_contract (fun _ => 5) 1200

/-- Predicate transcribing claim C6's wording of the pre-deadline exit
condition: the call returned either because the deadline had elapsed, or
because the count had been zero and unchanged throughout the 300 ms
stability window ending at the instant of return. -/
def C6ClaimPred (cnt : Nat → Nat) (deadline : Nat) : Prop :=
  deadline ≤ (quiet cnt deadline).1 ∨
    (∀ u, (quiet cnt deadline).1 ≤ u + 300 → u ≤ (quiet cnt deadline).1 → cnt u = 0)

/-- C6 counterexample: with a constant in-flight count of 5 and a 1200 ms
deadline, `quiet` resolves at elapsed time 320 ms with the stable-count
reason — before the deadline, although the count never read zero — so
the claimed exit condition (count zero and unchanged for 300 ms, or
deadline elapsed, whichever first) does not hold of the code. -/
theorem c6_claim_counterexample :
    quiet (fun _ => 5) 1200 = (320, QReason.stable) ∧ ¬ C6ClaimPred (fun _ => 5) 1200 := by
  have hq : quiet (fun _ => 5) 1200 = (320, QReason.stable) := by decide
  refine ⟨hq, ?_⟩
  intro h
  simp only [C6ClaimPred, hq] at h
  rcases h with h | h
  · exact absurd h (by decide)
  · exact absurd (h 320 (by decide) (by decide)) (by decide)

/-! ## The long-poll purge (claim C7) -/

/-- Postcondition for claim C7 at a tracker state `l`, current time
`now0` and cutoff `cutoff`: the count operation discards exactly the
entries older than the cutoff; a state whose entries are all older than
the cutoff counts as zero; and `quiet` applied to that state's counts
returns at elapsed time 0 for every deadline — it does not wait on the
stale entries. -/
def PurgePost (cutoff now0 : Nat) (l : List (Nat × Nat)) : Prop :=
  (∀ p : Nat × Nat, p ∈ purgeInflight cutoff now0 l ↔ p ∈ l ∧ now0 - p.2 ≤ cutoff)
  ∧ inflightCount cutoff now0 l = 0
  ∧ ∀ d, (quiet (fun t => inflightCount cutoff (now0 + t) l) d).1 = 0

/-- C7 (confirmed): before returning a count, the tracker discards every
in-flight entry whose timestamp is older than the long-poll cutoff;
hence a state whose only entries are older than the cutoff counts zero,
and `quiet()` returns immediately without waiting on them. -/
theorem c7_longpoll_purge (cutoff now0 : Nat) (l : List (Nat × Nat))
    (h : ∀ p ∈ l, cutoff < now0 - p.2) : PurgePost cutoff now0 l := by
  have hz : ∀ t, inflightCount cutoff (now0 + t) l = 0 := by
    intro t
    have : purgeInflight cutoff (now0 + t) l = [] := by
      rw [purgeInflight, List.filter_eq_nil_iff]
      intro p hp
      have := h p hp
      simp only [decide_eq_true_eq]
      omega
    simp [inflightCount, this]
  have h0 : inflightCount cutoff now0 l = 0 := by simpa using hz 0
  refine ⟨?_, h0, ?_⟩
  · intro p
    simp only [purgeInflight, List.mem_filter, decide_eq_true_eq]
  · intro d
    show (quietGo _ d (quietFuel d) 0 _ 0).1 = 0
    have hfe : quietFuel d = d / 40 + 1 := rfl
    rw [hfe]
    by_cases hd : d ≤ 0
    · simp [quietGo, hd]
    · simp [quietGo, hd, h0]

/-- C7 witness: two requests inserted at timestamps 100 and 200, counted
at time 5000 with the default 2000 ms cutoff. -/
theorem c7_longpoll_purge_witness :
    PurgePost longPollCutoffMsDefault 5000 [(1, 100), (2, 200)] :=
  c7_longpoll_purge longPollCutoffMsDefault 5000 [(1, 100), (2, 200)] (by decide)

/-! ## The interception rule (claim C8) -/

lemma isPdfBuffer_iff (b : List Nat) :
    isPdfBuffer b = true ↔ 5 ≤ b.length ∧ b.take 5 = pdfMagic := by
  unfold isPdfBuffer
  by_cases h : b.length < 5
  · simp only [if_pos h]
    constructor
    · intro hf; cases hf
    · rintro ⟨h5, _⟩; omega
  · simp only [if_neg h, decide_eq_true_eq]
    constructor
    · intro ht; exact ⟨by omega, ht⟩
    · rintro ⟨_, ht⟩; exact ht

/-- C8 (confirmed): with no download captured yet, the interception rule
rewrites a response (same status, same body, forced
`Content-Disposition: attachment`) exactly when the content type
contains `application/pdf` and the body carries the five-byte `%PDF-`
magic signature; every other response — and every response once a
download was captured — is continued unmodified. -/
theorem c8_route_rewrite_iff (st : Nat) (hs : List (String × String)) (body : List Nat) :
    (routeHandler false st hs body =
        RouteAction.fulfill st (setHeader hs "Content-Disposition" attachmentDisposition) body
      ↔ containsSub (contentTypeOf hs) "application/pdf" = true
          ∧ 5 ≤ body.length ∧ body.take 5 = pdfMagic)
    ∧ (routeHandler false st hs body = RouteAction.passThrough
      ↔ ¬ (containsSub (contentTypeOf hs) "application/pdf" = true
          ∧ 5 ≤ body.length ∧ body.take 5 = pdfMagic))
    ∧ routeHandler true st hs body = RouteAction.passThrough := by
  unfold routeHandler
  by_cases hct : containsSub (contentTypeOf hs) "application/pdf" = true
  · by_cases hm : isPdfBuffer body = true
    · have hmm := (isPdfBuffer_iff body).mp hm
      simp [hct, hm, hmm]
    · have hm' : isPdfBuffer body = false := by
        cases hb : isPdfBuffer body
        · rfl
        · exact absurd hb hm
      have hmm : ¬ (5 ≤ body.length ∧ body.take 5 = pdfMagic) :=
        fun hc => hm ((isPdfBuffer_iff body).mpr hc)
      simp [hct, hm', hmm]
  · have hct' : containsSub (contentTypeOf hs) "application/pdf" = false := by
      cases hb : containsSub (contentTypeOf hs) "application/pdf"
      · rfl
      · exact absurd hb hct
    simp [hct']

/-! ## Filename derivation (claims C9) -/

/-- The query-string fallback chain
`qs.get('filename') || qs.get('fileName') || qs.get('download') || ''`. -/
def qsChain (u : String) : String :=
  jsOrS (searchParamsGet u "filename")
    (jsOrS (searchParamsGet u "fileName") (jsOrS (searchParamsGet u "download") ""))

lemma pdfTest_append_pdf (s : String) : pdfTest (s ++ ".pdf") = true := by
  unfold pdfTest
  rw [String.data_append, List.map_append]
  have h4 : ".pdf".data.map Char.toLower = ".pdf".data := by decide
  rw [h4]
  exact (List.isSuffixOf_iff_suffix).mpr (List.suffix_append _ _)

lemma pdfTest_finishName (n : String) : pdfTest (finishName n) = true := by
  unfold finishName
  by_cases hp : pdfTest (jsTrim (stripQuotes n)) = true
  · simp [hp]
  · simp only [if_neg hp]
    exact pdfTest_append_pdf _

lemma mem_jsTrim {c : Char} {s : String} (h : c ∈ (jsTrim s).data) : c ∈ s.data := by
  unfold jsTrim at h
  rw [show (String.mk ((((s.data.dropWhile isJsWs).reverse).dropWhile isJsWs).reverse)).data
      = (((s.data.dropWhile isJsWs).reverse).dropWhile isJsWs).reverse from rfl,
    List.mem_reverse] at h
  have h1 := (List.dropWhile_sublist _).mem h
  rw [List.mem_reverse] at h1
  exact (List.dropWhile_sublist _).mem h1

lemma stripQuotes_no_quote (s : String) (c : Char)
    (hc : c = Char.ofNat 34 ∨ c = Char.ofNat 39) : c ∉ (stripQuotes s).data := by
  intro h
  have h2 := (List.mem_filter.mp h).2
  rcases hc with hc | hc <;> subst hc <;> simp at h2

lemma finishName_no_quote (n : String) (c : Char)
    (hc : c = Char.ofNat 34 ∨ c = Char.ofNat 39) : c ∉ (finishName n).data := by
  intro h
  unfold finishName at h
  by_cases hp : pdfTest (jsTrim (stripQuotes n)) = true
  · rw [if_pos hp] at h
    exact stripQuotes_no_quote n c hc (mem_jsTrim h)
  · rw [if_neg hp, String.data_append] at h
    rcases List.mem_append.mp h with h | h
    · exact stripQuotes_no_quote n c hc (mem_jsTrim h)
    · rcases hc with hc | hc <;> subst hc <;> simp at h

/-- C9 specification at one input quadruple: `f` is the `filename`
argument, `u` the `resUrl` argument, `d` a caller-supplied override and
`sug` a browser-suggested filename.  It packages: the result always ends
in `.pdf` case-insensitively; the priority chain (explicit filename,
else query-string parameters, else trailing path segment, else
`document.pdf`); quote stripping; and the call-site priority of the
override over the suggestion. -/
def C9Spec (f u d sug : String) : Prop :=
  pdfTest (ensurePdfName f u) = true
  ∧ (f ≠ "" → ensurePdfName f u = finishName f)
  ∧ (f = "" → qsChain u ≠ "" → ensurePdfName f u = finishName (qsChain u))
  ∧ (f = "" → qsChain u = "" → lastSegment u ≠ "" → ensurePdfName f u = finishName (lastSegment u))
  ∧ (f = "" → qsChain u = "" → lastSegment u = "" → ensurePdfName f u = "document.pdf")
  ∧ Char.ofNat 34 ∉ (ensurePdfName f u).data
  ∧ Char.ofNat 39 ∉ (ensurePdfName f u).data
  ∧ (d ≠ "" → downloadName (some d) sug = finishName d)
  ∧ downloadName none sug = ensurePdfName sug ""
  ∧ downloadName (some "") sug = ensurePdfName sug ""

/-- C9 (confirmed): the derived filename prefers the caller-supplied
override, then the browser-suggested name, then the
`filename`/`fileName`/`download` query parameters, then the trailing URL
path segment (`document.pdf` when even that is empty); quotes are
stripped; and the result always ends in `.pdf`, the extension being
appended whenever the name does not already end in it
case-insensitively. -/
theorem c9_ensure_pdf_name (f u d sug : String) : C9Spec f u d sug := by
  have hfin : ∀ (a b : String), ensurePdfName a b =
      finishName (if (if a = "" ∧ b ≠ "" then
          (if qsChain b ≠ "" then qsChain b else a) else a) = "" then
        (if lastSegment b = "" then "document.pdf" else lastSegment b)
      else (if a = "" ∧ b ≠ "" then (if qsChain b ≠ "" then qsChain b else a) else a)) := by
    intro a b
    rfl
  refine ⟨?_, ?_, ?_, ?_, ?_, ?_, ?_, ?_, rfl, rfl⟩
  · rw [hfin]; exact pdfTest_finishName _
  · intro hf
    rw [hfin]
    simp [hf]
  · intro hf hq
    subst hf
    have hu : u ≠ "" := by
      intro hu; subst hu; exact hq rfl
    rw [hfin]
    simp [hu, hq]
  · intro hf hq hseg
    subst hf
    rw [hfin]
    by_cases hu : u = ""
    · subst hu
      exact absurd (by decide : lastSegment "" = "") hseg
    · simp [hu, hq, hseg]
  · intro hf hq hseg
    subst hf
    rw [hfin]
    by_cases hu : u = ""
    · subst hu
      simp only [hseg]
      decide
    · simp only [hu, hq, hseg]
      simp
      decide
  · rw [hfin]; exact finishName_no_quote _ _ (Or.inl rfl)
  · rw [hfin]; exact finishName_no_quote _ _ (Or.inr rfl)
  · intro hd
    show ensurePdfName (jsOrS (some d) sug) "" = finishName d
    have : jsOrS (some d) sug = d := by simp [jsOrS, hd]
    rw [this, hfin]
    simp [hd]

/-- C9 witness: a concrete instantiation; in particular with no filename
hint anywhere the derived name is `document.pdf`, and the suffix test
holds. -/
theorem c9_ensure_pdf_name_witness : C9Spec "" "" "nome" "sugerido.bin" :=
  c9_ensure_pdf_name "" "" "nome" "sugerido.bin"

/-! ## Pre-flight validation lemmas (claims C2, C5) -/

lemma mem_jsSetDedupGo (k : String) :
    ∀ l seen, k ∈ jsSetDedupGo seen l ↔ k ∈ l ∧ k ∉ seen := by
  intro l
  induction l with
  | nil => intro seen; simp [jsSetDedupGo]
  | cons a l ih =>
    intro seen
    by_cases ha : a ∈ seen
    · rw [jsSetDedupGo, if_pos ha, ih, List.mem_cons]
      constructor
      · rintro ⟨h1, h2⟩
        exact ⟨Or.inr h1, h2⟩
      · rintro ⟨h1 | h1, h2⟩
        · exact absurd (h1 ▸ ha) h2
        · exact ⟨h1, h2⟩
    · rw [jsSetDedupGo, if_neg ha, List.mem_cons, ih, List.mem_cons, List.mem_cons]
      constructor
      · rintro (h | ⟨h1, h2⟩)
        · exact ⟨Or.inl h, h ▸ ha⟩
        · rw [not_or] at h2
          exact ⟨Or.inr h1, h2.2⟩
      · rintro ⟨h | h, h2⟩
        · exact Or.inl h
        · by_cases hk : k = a
          · exact Or.inl hk
          · exact Or.inr ⟨h, by rw [not_or]; exact ⟨hk, h2⟩⟩

lemma mem_jsSetDedup (k : String) (l : List String) : k ∈ jsSetDedup l ↔ k ∈ l := by
  rw [jsSetDedup, mem_jsSetDedupGo]
  simp

/-- Characterisation of the `absentKeys` accumulator: it holds exactly
the required keys absent from `dados`, over all steps, when the
operation is not the partial-update kind. -/
lemma validateSteps_keys (dados : String → Option JVal) (allowOptional : Bool)
    (fsE : String → Bool) :
    ∀ steps aks afs, validateSteps dados allowOptional fsE steps = .ok (aks, afs) →
      ∀ k, k ∈ aks ↔ (allowOptional = false ∧
        ∃ s ∈ steps, stepNeedsKey s.action = true ∧ s.key = some k ∧ dados k = none) := by
  intro steps
  induction steps with
  | nil =>
    intro aks afs hok k
    simp only [validateSteps, Except.ok.injEq, Prod.mk.injEq] at hok
    obtain ⟨h1, _⟩ := hok
    subst h1
    simp
  | cons s rest ih =>
    intro aks afs hok k
    by_cases hsel : s.selector = ""
    · rw [validateSteps, if_pos hsel] at hok; cases hok
    · by_cases hnk : stepNeedsKey s.action = true
      · cases hkey : s.key with
        | none =>
          simp only [validateSteps, if_neg hsel, hnk, hkey, if_true] at hok
          cases hok
        | some k0 =>
          cases hd : dados k0 with
          | none =>
            simp only [validateSteps, if_neg hsel, hnk, hkey, hd, if_true] at hok
            cases hrec : validateSteps dados allowOptional fsE rest with
            | error m => simp only [hrec] at hok; cases hok
            | ok pr =>
              obtain ⟨aks', afs'⟩ := pr
              simp only [hrec, Except.ok.injEq, Prod.mk.injEq] at hok
              obtain ⟨h1, _⟩ := hok
              subst h1
              have hih := ih aks' afs' hrec k
              by_cases hopt : allowOptional = true
              · simp only [hopt, if_true]
                rw [hih]
                simp [hopt]
              · have hopt' : allowOptional = false := by
                  cases allowOptional
                  · rfl
                  · exact absurd rfl hopt
                simp only [hopt', Bool.false_eq_true, if_false]
                rw [List.mem_cons, hih]
                simp only [hopt', true_and, List.exists_mem_cons_iff, hnk, hkey,
                  Option.some.injEq, true_and]
                constructor
                · rintro (h | h)
                  · exact Or.inl ⟨h.symm, h ▸ hd⟩
                  · exact Or.inr h
                · rintro (⟨h, _⟩ | h)
                  · exact Or.inl h.symm
                  · exact Or.inr h
          | some v =>
            by_cases hup : s.action = JAction.upload
            · simp only [validateSteps, if_neg hsel, hnk, hkey, hd, if_pos hup, if_true] at hok
              cases hrec : validateSteps dados allowOptional fsE rest with
              | error m => simp only [hrec] at hok; cases hok
              | ok pr =>
                obtain ⟨aks', afs'⟩ := pr
                simp only [hrec, Except.ok.injEq, Prod.mk.injEq] at hok
                obtain ⟨h1, _⟩ := hok
                subst h1
                rw [ih aks' afs' hrec k]
                simp only [List.exists_mem_cons_iff, hnk, hkey, Option.some.injEq, true_and]
                constructor
                · rintro ⟨ho, h⟩
                  exact ⟨ho, Or.inr h⟩
                · rintro ⟨ho, h | h⟩
                  · obtain ⟨h1, h2⟩ := h
                    rw [← h1, hd] at h2
                    cases h2
                  · exact ⟨ho, h⟩
            · simp only [validateSteps, if_neg hsel, hnk, hkey, hd, if_neg hup, if_true] at hok
              rw [ih aks afs hok k]
              simp only [List.exists_mem_cons_iff, hnk, hkey, Option.some.injEq, true_and]
              constructor
              · rintro ⟨ho, h⟩
                exact ⟨ho, Or.inr h⟩
              · rintro ⟨ho, h | h⟩
                · obtain ⟨h1, h2⟩ := h
                  rw [← h1, hd] at h2
                  cases h2
                · exact ⟨ho, h⟩
      · have hnk' : stepNeedsKey s.action = false := by
          cases hb : stepNeedsKey s.action
          · rfl
          · exact absurd hb hnk
        simp only [validateSteps, if_neg hsel, hnk', Bool.false_eq_true, if_false] at hok
        rw [ih aks afs hok k]
        simp only [List.exists_mem_cons_iff]
        constructor
        · rintro ⟨ho, h⟩
          exact ⟨ho, Or.inr h⟩
        · rintro ⟨ho, h | h⟩
          · obtain ⟨h1, _⟩ := h
            rw [hnk'] at h1
            cases h1
          · exact ⟨ho, h⟩

/-- Characterisation of the `absentFiles` accumulator: it holds exactly
the failing upload entries of steps whose key is present in `dados`
(a step with a missing key `continue`s before its file check). -/
lemma validateSteps_files (dados : String → Option JVal) (allowOptional : Bool)
    (fsE : String → Bool) :
    ∀ steps aks afs, validateSteps dados allowOptional fsE steps = .ok (aks, afs) →
      ∀ k f, (k, f) ∈ afs ↔ ∃ s ∈ steps, s.action = JAction.upload ∧ s.key = some k ∧
        ∃ v, dados k = some v ∧ f ∈ jsToArr v ∧ fileBad fsE f = true := by
  intro steps
  induction steps with
  | nil =>
    intro aks afs hok k f
    simp only [validateSteps, Except.ok.injEq, Prod.mk.injEq] at hok
    obtain ⟨_, h2⟩ := hok
    subst h2
    simp
  | cons s rest ih =>
    intro aks afs hok k f
    by_cases hsel : s.selector = ""
    · rw [validateSteps, if_pos hsel] at hok; cases hok
    · by_cases hnk : stepNeedsKey s.action = true
      · cases hkey : s.key with
        | none =>
          simp only [validateSteps, if_neg hsel, hnk, hkey, if_true] at hok
          cases hok
        | some k0 =>
          cases hd : dados k0 with
          | none =>
            simp only [validateSteps, if_neg hsel, hnk, hkey, hd, if_true] at hok
            cases hrec : validateSteps dados allowOptional fsE rest with
            | error m => simp only [hrec] at hok; cases hok
            | ok pr =>
              obtain ⟨aks', afs'⟩ := pr
              simp only [hrec, Except.ok.injEq, Prod.mk.injEq] at hok
              obtain ⟨_, h2⟩ := hok
              subst h2
              rw [ih aks' afs' hrec k f]
              simp only [List.exists_mem_cons_iff, hkey, Option.some.injEq]
              constructor
              · intro h
                exact Or.inr h
              · rintro (⟨_, h1, v, h2, _⟩ | h)
                · rw [← h1, hd] at h2
                  cases h2
                · exact h
          | some v =>
            by_cases hup : s.action = JAction.upload
            · simp only [validateSteps, if_neg hsel, hnk, hkey, hd, if_pos hup, if_true] at hok
              cases hrec : validateSteps dados allowOptional fsE rest with
              | error m => simp only [hrec] at hok; cases hok
              | ok pr =>
                obtain ⟨aks', afs'⟩ := pr
                simp only [hrec, Except.ok.injEq, Prod.mk.injEq] at hok
                obtain ⟨_, h2⟩ := hok
                subst h2
                rw [List.mem_append, ih aks' afs' hrec k f]
                simp only [List.exists_mem_cons_iff, hkey, Option.some.injEq, hup, true_and,
                  List.mem_map, List.mem_filter]
                constructor
                · rintro (⟨f', ⟨hf1, hf2⟩, hf3⟩ | h)
                  · have hk : k0 = k := congrArg Prod.fst hf3
                    have hf : f' = f := congrArg Prod.snd hf3
                    exact Or.inl ⟨hk, v, hk ▸ hd, hf ▸ hf1, hf ▸ hf2⟩
                  · exact Or.inr h
                · rintro (⟨hk, v', hv', hf1, hf2⟩ | h)
                  · rw [← hk, hd] at hv'
                    injection hv' with hv
                    subst hv
                    exact Or.inl ⟨f, ⟨hf1, hf2⟩, by rw [hk]⟩
                  · exact Or.inr h
            · simp only [validateSteps, if_neg hsel, hnk, hkey, hd, if_neg hup, if_true] at hok
              rw [ih aks afs hok k f]
              simp only [List.exists_mem_cons_iff, hup]
              constructor
              · intro h
                exact Or.inr h
              · rintro (⟨h1, _⟩ | h)
                · exact h1.elim
                · exact h
      · have hnk' : stepNeedsKey s.action = false := by
          cases hb : stepNeedsKey s.action
          · rfl
          · exact absurd hb hnk
        simp only [validateSteps, if_neg hsel, hnk', Bool.false_eq_true, if_false] at hok
        rw [ih aks afs hok k f]
        simp only [List.exists_mem_cons_iff]
        constructor
        · intro h
          exact Or.inr h
        · rintro (⟨h1, _⟩ | h)
          · have : stepNeedsKey s.action = true := by
              rw [stepNeedsKey, h1]
              simp
            rw [hnk'] at this
            cases this
          · exact h

/-- C5 amended specification: given that the validation loop completed
with accumulators `aks` (absent keys) and `afs` (absent files), `aks`
holds exactly the required-but-absent keys over *all* steps and `afs`
exactly the failing upload entries (several per step included) of steps
whose key is present; a nonempty `aks` is reported as one failure whose
message names every absent key (deduplicated); only when no key is
missing is a nonempty `afs` reported, as one failure naming every
missing file; with neither, validation succeeds. -/
def C5Spec (dados : String → Option JVal) (allowOptional : Bool) (fsE : String → Bool)
    (steps : List JStep) (aks : List String) (afs : List (String × JItem)) : Prop :=
  (∀ k, k ∈ aks ↔ (allowOptional = false ∧
      ∃ s ∈ steps, stepNeedsKey s.action = true ∧ s.key = some k ∧ dados k = none))
  ∧ (∀ k f, (k, f) ∈ afs ↔ ∃ s ∈ steps, s.action = JAction.upload ∧ s.key = some k ∧
      ∃ v, dados k = some v ∧ f ∈ jsToArr v ∧ fileBad fsE f = true)
  ∧ (aks ≠ [] → validateMapa dados allowOptional fsE steps = .error (chavesMsg aks)
      ∧ ∀ k, k ∈ jsSetDedup aks ↔ k ∈ aks)
  ∧ (aks = [] → afs ≠ [] → validateMapa dados allowOptional fsE steps = .error (arquivosMsg afs))
  ∧ (aks = [] → afs = [] → validateMapa dados allowOptional fsE steps = .ok ())

/-- C5 (corrected, amended part): all missing keys are aggregated across
every step into one failure naming all of them, and — when no key is
missing — all missing upload files (including several referenced by a
single upload step) are aggregated into one failure naming all of them;
when both kinds of violation exist, the missing-keys failure is the one
raised and the missing files are not named in it (steps with missing
keys also skip their file checks). -/
theorem c5_validation_aggregates (dados : String → Option JVal) (allowOptional : Bool)
    (fsE : String → Bool) (steps : List JStep) (aks : List String)
    (afs : List (String × JItem))
    (hok : validateSteps dados allowOptional fsE steps = .ok (aks, afs)) :
    C5Spec dados allowOptional fsE steps aks afs := by
  refine ⟨validateSteps_keys dados allowOptional fsE steps aks afs hok,
    validateSteps_files dados allowOptional fsE steps aks afs hok, ?_, ?_, ?_⟩
  · intro hne
    refine ⟨?_, fun k => mem_jsSetDedup k aks⟩
    simp only [validateMapa, hok]
    simp [hne]
  · intro h1 h2
    simp only [validateMapa, hok]
    simp [h1, h2]
  · intro h1 h2
    simp only [validateMapa, hok]
    simp [h1, h2]

def c5wSteps : List JStep := [{ action := .upload, selector := "s", key := some "k" }]

def c5wDados : String → Option JVal :=
  fun k => if k = "k" then some (.varr [.istr "/f1", .istr "/f2"]) else none

/-- C5 witness: one upload step referencing two nonexistent files; both
appear in the collected list, and the single failure names both. -/
theorem c5_validation_aggregates_witness :
    C5Spec c5wDados false (fun _ => false) c5wSteps []
      [("k", JItem.istr "/f1"), ("k", JItem.istr "/f2")] :=
  c5_validation_aggregates c5wDados false (fun _ => false) c5wSteps []
    [("k", JItem.istr "/f1"), ("k", JItem.istr "/f2")] rfl

/-- The claim C5 as stated: whenever pre-flight validation fails, the
raised message names every missing key *and* every missing upload file
path. -/
def C5ClaimPred (dados : String → Option JVal) (allowOptional : Bool) (fsE : String → Bool)
    (steps : List JStep) : Prop :=
  ∀ m aks afs, validateSteps dados allowOptional fsE steps = .ok (aks, afs) →
    validateMapa dados allowOptional fsE steps = .error m →
    (∀ k ∈ aks, containsSub m k = true)
    ∧ (∀ p ∈ afs, ∀ s, p.2 = JItem.istr s → containsSub m s = true)

def c5cSteps : List JStep :=
  [{ action := .fill, selector := "s1", key := some "chA" },
   { action := .upload, selector := "s2", key := some "chB" }]

def c5cDados : String → Option JVal :=
  fun k => if k = "chB" then some (.vstr "/nofile") else none

/-- C5 counterexample: with key `chA` missing and the upload file
`/nofile` (key `chB`) nonexistent, the single failure raised is the
missing-keys error, whose message does not name `/nofile` — so the claim
that one failure names all missing keys and all missing files is false
on the code. -/
theorem c5_claim_counterexample :
    ¬ C5ClaimPred c5cDados false (fun _ => false) c5cSteps := by
  intro h
  have h2 := (h (chavesMsg ["chA"]) ["chA"] [("chB", JItem.istr "/nofile")] rfl rfl).2
    ("chB", JItem.istr "/nofile") (by simp) "/nofile" rfl
  exact absurd h2 (by decide)

/-- C2 (confirmed): with a data record lacking a key required by a
`fill`/`upload`/`select` step and an operation other than `editar`,
`runMapa` throws before `chromium.launchPersistentContext` is invoked:
the result is an error and the session log shows no launch, so no
session resource exists when the caller sees the failure. -/
theorem c2_missing_key_aborts_before_launch (url : String) (li : Option JLoginInfo)
    (dados : String → Option JVal) (mapa : JMapa) (o : Oracles) (k : String)
    (hk : ∃ s ∈ mapa.steps, stepNeedsKey s.action = true ∧ s.key = some k ∧ dados k = none)
    (hop : mapa.operacao ≠ "editar") :
    (runMapa url li dados mapa o).2.launched = false
    ∧ ∃ m, (runMapa url li dados mapa o).1 = .error m := by
  have hvm : ∀ fsE : String → Bool,
      validateMapa dados (mapa.operacao = "editar") fsE mapa.steps ≠ .ok () := by
    intro fsE hok
    simp only [validateMapa] at hok
    cases hrec : validateSteps dados (decide (mapa.operacao = "editar")) fsE mapa.steps with
    | error m => simp only [hrec] at hok; cases hok
    | ok pr =>
      obtain ⟨aks, afs⟩ := pr
      simp only [hrec] at hok
      by_cases hne : aks = []
      · have hmem := (validateSteps_keys dados (decide (mapa.operacao = "editar")) fsE
          mapa.steps aks afs hrec k).mpr ⟨decide_eq_false hop, hk⟩
        rw [hne] at hmem
        cases hmem
      · simp [hne] at hok
  cases hpc : preflightCheck url li dados o.fsExists mapa with
  | ok u =>
    exfalso
    rw [preflightCheck.eq_def] at hpc
    by_cases hu : url = ""
    · rw [if_pos hu] at hpc; cases hpc
    · rw [if_neg hu] at hpc
      cases hlg : mapa.login with
      | none =>
        simp only [hlg] at hpc
        cases u
        exact hvm o.fsExists hpc
      | some lg =>
        simp only [hlg] at hpc
        by_cases hl1 : lg.username = "" ∨ lg.password = "" ∨ lg.submit = ""
        · rw [if_pos hl1] at hpc; cases hpc
        · rw [if_neg hl1] at hpc
          cases hli : li with
          | none => simp only [hli] at hpc; cases hpc
          | some info =>
            simp only [hli] at hpc
            by_cases hl2 : info.usernameValue = "" ∨ info.passwordValue = ""
            · rw [if_pos hl2] at hpc; cases hpc
            · rw [if_neg hl2] at hpc
              cases u
              exact hvm o.fsExists hpc
  | error m =>
    constructor
    · simp [runMapa, hpc]
    · exact ⟨m, by simp [runMapa, hpc]⟩

def c2wMapa : JMapa :=
  { operacao := "consultar", steps := [{ action := .fill, selector := "s", key := some "k" }] }

def c2wDados : String → Option JVal := fun _ => none

def c2wOracles : Oracles :=
  { fsExists := fun _ => false, stepErr := fun _ => none, att := fun _ => false }

/-- C2 witness: a one-step `consultar` map whose `fill` key is absent
from an empty data record. -/
theorem c2_missing_key_aborts_before_launch_witness :
    (runMapa "http://x" none c2wDados c2wMapa c2wOracles).2.launched = false
    ∧ ∃ m, (runMapa "http://x" none c2wDados c2wMapa c2wOracles).1 = .error m :=
  c2_missing_key_aborts_before_launch "http://x" none c2wDados c2wMapa c2wOracles "k"
    (by decide) (by decide)

/-! ## Interpreter lemmas (claims C1, C3, C10) -/

/-- The step index an event is attributed to. -/
def evIdx : Ev → Nat
  | .acted i => i
  | .combo i => i
  | .skipped i _ => i
  | .probe j _ => j

def headRS : List JStep → Bool
  | [] => false
  | st :: _ => st.meta.resultSelector

lemma probeGroup_not_rs (att : Nat → Bool) (l : List JStep) (j : Nat) (rf : Option Bool)
    (h : headRS l = false) : probeGroup att j l rf = ([], rf) := by
  cases l with
  | nil => rfl
  | cons st rest =>
    have hrs : st.meta.resultSelector = false := h
    simp [probeGroup, hrs]

lemma grpLen_zero (l : List JStep) (h : headRS l = false) : grpLen l = 0 := by
  cases l with
  | nil => rfl
  | cons st rest =>
    have hrs : st.meta.resultSelector = false := h
    simp [grpLen, hrs]

lemma grpLen_cons (st : JStep) (rest : List JStep) (h : st.meta.resultSelector = true) :
    grpLen (st :: rest) = grpLen rest + 1 := by
  simp [grpLen, h]

lemma probeGroup_eq (att : Nat → Bool) :
    ∀ (l : List JStep) (j : Nat) (rf : Option Bool), headRS l = true →
      probeGroup att j l rf = (spanTrace att j (grpLen l), some (anyAtt att j (grpLen l))) := by
  intro l
  induction l with
  | nil => intro j rf h; cases h
  | cons st rest ih =>
    intro j rf h
    have hrs : st.meta.resultSelector = true := h
    rw [grpLen_cons st rest hrs]
    by_cases ha : att j = true
    · simp [probeGroup, hrs, ha, spanTrace, anyAtt]
    · have ha' : att j = false := by
        cases hb : att j
        · rfl
        · exact absurd hb ha
      cases hrt : headRS rest with
      | true =>
        simp only [probeGroup, hrs, if_true, ha', Bool.false_eq_true, if_false,
          ih (j + 1) (some false) hrt, spanTrace, anyAtt]
        simp [ha']
      | false =>
        rw [grpLen_zero rest hrt]
        simp only [probeGroup, hrs, if_true, ha', Bool.false_eq_true, if_false,
          probeGroup_not_rs att rest (j + 1) (some false) hrt, spanTrace, anyAtt]
        simp [ha']

lemma anyAtt_iff (att : Nat → Bool) :
    ∀ n g, anyAtt att g n = true ↔ ∃ k, k < n ∧ att (g + k) = true := by
  intro n
  induction n with
  | zero => intro g; simp [anyAtt]
  | succ n ih =>
    intro g
    simp only [anyAtt, Bool.or_eq_true, ih (g + 1)]
    constructor
    · rintro (h | ⟨k, hk, hak⟩)
      · exact ⟨0, by omega, by simpa using h⟩
      · exact ⟨k + 1, by omega, by rw [show g + (k + 1) = g + 1 + k by omega]; exact hak⟩
    · rintro ⟨k, hk, hak⟩
      cases k with
      | zero => exact Or.inl (by simpa using hak)
      | succ k =>
        exact Or.inr ⟨k, by omega, by rw [show g + 1 + k = g + (k + 1) by omega]; exact hak⟩

lemma spanTrace_mem (att : Nat → Bool) :
    ∀ n g ev, ev ∈ spanTrace att g n → ∃ k, k < n ∧ ev = Ev.probe (g + k) (att (g + k)) := by
  intro n
  induction n with
  | zero => intro g ev h; simp [spanTrace] at h
  | succ n ih =>
    intro g ev h
    simp only [spanTrace] at h
    by_cases ha : att g = true
    · rw [if_pos ha] at h
      simp only [List.mem_singleton] at h
      exact ⟨0, by omega, by simpa [ha] using h⟩
    · have ha' : att g = false := by
        cases hb : att g
        · rfl
        · exact absurd hb ha
      rw [if_neg ha] at h
      rcases List.mem_cons.mp h with h | h
      · exact ⟨0, by omega, by simpa [ha'] using h⟩
      · obtain ⟨k, hk, he⟩ := ih (g + 1) ev h
        exact ⟨k + 1, by omega, by rw [show g + (k + 1) = g + 1 + k by omega]; exact he⟩

/-- C1 amended specification, at the interpreter state that has reached
the first step of a probe group at absolute index `g`: the loop probes
exactly the members of the contiguous group in sequence, stopping at the
first success, finishes with `resultFound = some b` where `b` is true
iff at least one group locator attaches, and emits no event other than
those probes — in particular no step positioned after the group
executes (only the logout sub-protocol follows, see `runMapa`). -/
def C1Spec (dados : String → Option JVal) (allowOptional : Bool)
    (stepErr : Nat → Option String) (att : Nat → Bool) (g : Nat) (l : List JStep) : Prop :=
  runStepsAux dados allowOptional stepErr att g l
      = (spanTrace att g (grpLen l), .done (some (anyAtt att g (grpLen l))))
  ∧ (anyAtt att g (grpLen l) = true ↔ ∃ k, k < grpLen l ∧ att (g + k) = true)
  ∧ ∀ ev ∈ (runStepsAux dados allowOptional stepErr att g l).1,
      ∃ k, k < grpLen l ∧ ev = Ev.probe (g + k) (att (g + k))

/-- C1 (corrected, amended part): when execution reaches the first step
of a contiguous `resultSelector` group, `resultFound` is set to `true`
iff at least one locator of the group attaches within `resultWaitMs`
(probes attempted in sequence, stopping at the first success), to
`false` otherwise, and no step positioned after the group executes. -/
theorem c1_result_group (dados : String → Option JVal) (allowOptional : Bool)
    (stepErr : Nat → Option String) (att : Nat → Bool) (g : Nat) (st : JStep)
    (rest : List JStep) (hrs : st.meta.resultSelector = true) :
    C1Spec dados allowOptional stepErr att g (st :: rest) := by
  have h1 : runStepsAux dados allowOptional stepErr att g (st :: rest)
      = ((probeGroup att g (st :: rest) none).1, .done (probeGroup att g (st :: rest) none).2) := by
    cases rest with
    | nil => simp [runStepsAux, hrs]
    | cons nx rest' => simp [runStepsAux, hrs]
  have h2 := probeGroup_eq att (st :: rest) g none (show headRS (st :: rest) = true from hrs)
  refine ⟨?_, anyAtt_iff att _ g, ?_⟩
  · rw [h1, h2]
  · intro ev hev
    rw [h1, h2] at hev
    exact spanTrace_mem att _ g ev hev

/-- C1 witness: a single probe step at index 0 whose locator attaches. -/
theorem c1_result_group_witness :
    C1Spec (fun _ => none) false (fun _ => none) (fun _ => true) 0
      [{ action := .click, selector := "r", meta := { resultSelector := true } }] :=
  c1_result_group (fun _ => none) false (fun _ => none) (fun _ => true) 0
    { action := .click, selector := "r", meta := { resultSelector := true } } [] rfl

/-- The claim C1 as stated: on every successful run of a map containing
a contiguous probe group, `resultFound` equals `some b` with `b` true
iff some locator of the group attaches. -/
def C1ClaimPred (url : String) (li : Option JLoginInfo) (dados : String → Option JVal)
    (mapa : JMapa) (o : Oracles) : Prop :=
  ∀ rf, (runMapa url li dados mapa o).1 = .ok rf →
    ∀ g, groupStartAt mapa.steps g →
      rf = some (anyAtt o.att g (grpLenAt mapa.steps g))

def c1cMapa : JMapa :=
  { operacao := "consultar",
    steps := [{ action := .fill, selector := "a", key := some "k" },
              { action := .press, selector := "a", meta := { resultSelector := true } }] }

def c1cDados : String → Option JVal := fun k => if k = "k" then some (.vstr "v") else none

def c1cOracles : Oracles :=
  { fsExists := fun _ => true, stepErr := fun _ => none, att := fun _ => true }

/-- C1 counterexample: a map whose probe group consists of a `press`
step on the same selector as the preceding `fill`.  The fill+press combo
consumes the probe step, the run completes with `resultFound = null`
even though the group's locator attaches, so the claim as stated is
false on the code. -/
theorem c1_claim_counterexample :
    ¬ C1ClaimPred "http://x" none c1cDados c1cMapa c1cOracles := by
  intro h
  have h2 := h none rfl 1 ⟨by decide, by decide⟩
  exact Option.noConfusion h2

/-! ## Index bounds on the interpreter trace (for claim C3) -/

lemma probeGroup_events (att : Nat → Bool) :
    ∀ (l : List JStep) (j : Nat) (rf : Option Bool) ev,
      ev ∈ (probeGroup att j l rf).1 → j ≤ evIdx ev := by
  intro l
  induction l with
  | nil => intro j rf ev h; simp [probeGroup] at h
  | cons st rest ih =>
    intro j rf ev h
    by_cases hrs : st.meta.resultSelector = true
    · by_cases ha : att j = true
      · simp only [probeGroup, hrs, if_true, ha, List.mem_singleton] at h
        subst h
        exact Nat.le_refl j
      · have ha' : att j = false := by
          cases hb : att j
          · rfl
          · exact absurd hb ha
        simp only [probeGroup, hrs, if_true, ha', Bool.false_eq_true, if_false,
          List.mem_cons] at h
        rcases h with h | h
        · subst h; exact Nat.le_refl j
        · exact Nat.le_of_succ_le (ih (j + 1) (some false) ev h)
    · have hrs' : st.meta.resultSelector = false := by
        cases hb : st.meta.resultSelector
        · rfl
        · exact absurd hb hrs
      simp [probeGroup, hrs'] at h

lemma probeGroup_events_probe (att : Nat → Bool) :
    ∀ (l : List JStep) (j : Nat) (rf : Option Bool) ev,
      ev ∈ (probeGroup att j l rf).1 → ∃ j' b, ev = Ev.probe j' b := by
  intro l
  induction l with
  | nil => intro j rf ev h; simp [probeGroup] at h
  | cons st rest ih =>
    intro j rf ev h
    by_cases hrs : st.meta.resultSelector = true
    · by_cases ha : att j = true
      · simp only [probeGroup, hrs, if_true, ha, List.mem_singleton] at h
        exact ⟨j, true, h⟩
      · have ha' : att j = false := by simpa using ha
        simp only [probeGroup, hrs, if_true, ha', Bool.false_eq_true, if_false,
          List.mem_cons] at h
        rcases h with h | h
        · exact ⟨j, false, h⟩
        · exact ih (j + 1) (some false) ev h
    · have hrs' : st.meta.resultSelector = false := by simpa using hrs
      simp [probeGroup, hrs'] at h

/-- The combo-detection condition of the `fill` case: the list of
remaining steps starts with a `press` on the identical selector. -/
def comboAt (st : JStep) : List JStep → Prop
  | nx :: _ => nx.action = JAction.press ∧ nx.selector = st.selector
  | [] => False

/-- Every state of the interpreter does one of four things: it produces
no event (termination or a throw), it probes the result group, it emits
one event for the head step and continues at `i + 1` with the tail, or
— exactly when the head is a `fill` forming a combo with the next
step — it emits one event for the combined interaction and continues at
`i + 2`, consuming both steps. -/
lemma runStepsAux_shape (dados : String → Option JVal) (allowOptional : Bool)
    (stepErr : Nat → Option String) (att : Nat → Bool) (i : Nat) (l : List JStep) :
    (l = [] ∧ runStepsAux dados allowOptional stepErr att i l = ([], .done none))
    ∨ (∃ m, runStepsAux dados allowOptional stepErr att i l = ([], .threw i m))
    ∨ (headRS l = true ∧
        runStepsAux dados allowOptional stepErr att i l
          = ((probeGroup att i l none).1, .done (probeGroup att i l none).2))
    ∨ (∃ st rest E, l = st :: rest ∧ evIdx E = i ∧
        ¬ (st.action = JAction.fill ∧ comboAt st rest) ∧
        runStepsAux dados allowOptional stepErr att i l
          = (E :: (runStepsAux dados allowOptional stepErr att (i + 1) rest).1,
             (runStepsAux dados allowOptional stepErr att (i + 1) rest).2))
    ∨ (∃ st nx rest' E, l = st :: nx :: rest' ∧ evIdx E = i ∧
        st.action = JAction.fill ∧ comboAt st (nx :: rest') ∧
        runStepsAux dados allowOptional stepErr att i l
          = (E :: (runStepsAux dados allowOptional stepErr att (i + 2) rest').1,
             (runStepsAux dados allowOptional stepErr att (i + 2) rest').2)) := by
  cases l with
  | nil => exact Or.inl ⟨rfl, by simp [runStepsAux]⟩
  | cons st rest =>
    by_cases hrs : st.meta.resultSelector = true
    · refine Or.inr (Or.inr (Or.inl ⟨hrs, ?_⟩))
      cases rest with
      | nil => simp [runStepsAux, hrs]
      | cons nx rest' => simp [runStepsAux, hrs]
    · have hrs' : st.meta.resultSelector = false := by simpa using hrs
      cases hact : st.action with
      | fill =>
        cases rest with
        | nil =>
          cases hv : st.key.bind dados with
          | none =>
            by_cases hao : allowOptional = true
            · exact Or.inr (Or.inr (Or.inr (Or.inl ⟨st, [], Ev.skipped i false, rfl, rfl,
                (by simp [comboAt]), by simp [runStepsAux, hrs', hact, hv, hao]⟩)))
            · have hao' : allowOptional = false := by simpa using hao
              exact Or.inr (Or.inl ⟨missingDadosMsg st.key,
                by simp [runStepsAux, hrs', hact, hv, hao']⟩)
          | some v =>
            cases herr : stepErr i with
            | some m => exact Or.inr (Or.inl ⟨m, by simp [runStepsAux, hrs', hact, hv, herr]⟩)
            | none => exact Or.inr (Or.inr (Or.inr (Or.inl ⟨st, [], Ev.acted i, rfl, rfl,
                (by simp [comboAt]), by simp [runStepsAux, hrs', hact, hv, herr]⟩)))
        | cons nx rest' =>
          by_cases hcombo : nx.action = JAction.press ∧ nx.selector = st.selector
          · cases hv : st.key.bind dados with
            | none =>
              by_cases hao : allowOptional = true
              · exact Or.inr (Or.inr (Or.inr (Or.inr ⟨st, nx, rest', Ev.skipped i true, rfl,
                  rfl, hact, hcombo, by simp [runStepsAux, hrs', hact, hv, hao, hcombo]⟩)))
              · have hao' : allowOptional = false := by simpa using hao
                exact Or.inr (Or.inl ⟨missingDadosMsg st.key,
                  by simp [runStepsAux, hrs', hact, hv, hao', hcombo]⟩)
            | some v =>
              cases herr : stepErr i with
              | some m =>
                exact Or.inr (Or.inl ⟨m, by simp [runStepsAux, hrs', hact, hv, herr, hcombo]⟩)
              | none => exact Or.inr (Or.inr (Or.inr (Or.inr ⟨st, nx, rest', Ev.combo i, rfl,
                  rfl, hact, hcombo, by simp [runStepsAux, hrs', hact, hv, herr, hcombo]⟩)))
          · cases hv : st.key.bind dados with
            | none =>
              by_cases hao : allowOptional = true
              · exact Or.inr (Or.inr (Or.inr (Or.inl ⟨st, nx :: rest', Ev.skipped i false, rfl,
                  rfl, (fun hx => hcombo hx.2),
                  by simp [runStepsAux, hrs', hact, hv, hao, hcombo]⟩)))
              · have hao' : allowOptional = false := by simpa using hao
                exact Or.inr (Or.inl ⟨missingDadosMsg st.key,
                  by simp [runStepsAux, hrs', hact, hv, hao', hcombo]⟩)
            | some v =>
              cases herr : stepErr i with
              | some m =>
                exact Or.inr (Or.inl ⟨m, by simp [runStepsAux, hrs', hact, hv, herr, hcombo]⟩)
              | none => exact Or.inr (Or.inr (Or.inr (Or.inl ⟨st, nx :: rest', Ev.acted i, rfl,
                  rfl, (fun hx => hcombo hx.2),
                  by simp [runStepsAux, hrs', hact, hv, herr, hcombo]⟩)))
      | upload =>
        cases hv : st.key.bind dados with
        | none =>
          by_cases hao : allowOptional = true
          · refine Or.inr (Or.inr (Or.inr (Or.inl ⟨st, rest, Ev.skipped i false, rfl, rfl,
              (by simp [hact]), ?_⟩)))
            cases rest <;> simp [runStepsAux, hrs', hact, hv, hao]
          · have hao' : allowOptional = false := by simpa using hao
            refine Or.inr (Or.inl ⟨missingDadosMsg st.key, ?_⟩)
            cases rest <;> simp [runStepsAux, hrs', hact, hv, hao']
        | some v =>
          cases herr : stepErr i with
          | some m =>
            refine Or.inr (Or.inl ⟨m, ?_⟩)
            cases rest <;> simp [runStepsAux, hrs', hact, hv, herr]
          | none =>
            refine Or.inr (Or.inr (Or.inr (Or.inl ⟨st, rest, Ev.acted i, rfl, rfl,
              (by simp [hact]), ?_⟩)))
            cases rest <;> simp [runStepsAux, hrs', hact, hv, herr]
      | select =>
        cases hv : st.key.bind dados with
        | none =>
          by_cases hao : allowOptional = true
          · refine Or.inr (Or.inr (Or.inr (Or.inl ⟨st, rest, Ev.skipped i false, rfl, rfl,
              (by simp [hact]), ?_⟩)))
            cases rest <;> simp [runStepsAux, hrs', hact, hv, hao]
          · have hao' : allowOptional = false := by simpa using hao
            refine Or.inr (Or.inl ⟨missingDadosMsg st.key, ?_⟩)
            cases rest <;> simp [runStepsAux, hrs', hact, hv, hao']
        | some v =>
          cases herr : stepErr i with
          | some m =>
            refine Or.inr (Or.inl ⟨m, ?_⟩)
            cases rest <;> simp [runStepsAux, hrs', hact, hv, herr]
          | none =>
            refine Or.inr (Or.inr (Or.inr (Or.inl ⟨st, rest, Ev.acted i, rfl, rfl,
              (by simp [hact]), ?_⟩)))
            cases rest <;> simp [runStepsAux, hrs', hact, hv, herr]
      | click =>
        cases herr : stepErr i with
        | some m =>
          refine Or.inr (Or.inl ⟨m, ?_⟩)
          cases rest <;> simp [runStepsAux, hrs', hact, herr]
        | none =>
          refine Or.inr (Or.inr (Or.inr (Or.inl ⟨st, rest, Ev.acted i, rfl, rfl,
            (by simp [hact]), ?_⟩)))
          cases rest <;> simp [runStepsAux, hrs', hact, herr]
      | press =>
        cases herr : stepErr i with
        | some m =>
          refine Or.inr (Or.inl ⟨m, ?_⟩)
          cases rest <;> simp [runStepsAux, hrs', hact, herr]
        | none =>
          refine Or.inr (Or.inr (Or.inr (Or.inl ⟨st, rest, Ev.acted i, rfl, rfl,
            (by simp [hact]), ?_⟩)))
          cases rest <;> simp [runStepsAux, hrs', hact, herr]
      | download =>
        cases herr : stepErr i with
        | some m =>
          refine Or.inr (Or.inl ⟨m, ?_⟩)
          cases rest <;> simp [runStepsAux, hrs', hact, herr]
        | none =>
          refine Or.inr (Or.inr (Or.inr (Or.inl ⟨st, rest, Ev.acted i, rfl, rfl,
            (by simp [hact]), ?_⟩)))
          cases rest <;> simp [runStepsAux, hrs', hact, herr]

lemma runStepsAux_events_ge (dados : String → Option JVal) (allowOptional : Bool)
    (stepErr : Nat → Option String) (att : Nat → Bool) :
    ∀ (n : Nat) (l : List JStep) (i : Nat), l.length ≤ n →
      ∀ ev ∈ (runStepsAux dados allowOptional stepErr att i l).1, i ≤ evIdx ev := by
  intro n
  induction n with
  | zero =>
    intro l i hl ev h
    have hnil : l = [] := List.eq_nil_of_length_eq_zero (by omega)
    subst hnil
    simp [runStepsAux] at h
  | succ n ih =>
    intro l i hl ev h
    rcases runStepsAux_shape dados allowOptional stepErr att i l with
      ⟨_, h1⟩ | ⟨m, h1⟩ | ⟨_, h1⟩ | ⟨st, rest, E, hl', hE, _, h1⟩ |
      ⟨st, nx, rest', E, hl', hE, _, _, h1⟩
    · rw [h1] at h; simp at h
    · rw [h1] at h; simp at h
    · rw [h1] at h
      exact probeGroup_events att l i none ev h
    · rw [h1] at h
      subst hl'
      simp only [List.length_cons] at hl
      rcases List.mem_cons.mp h with h | h
      · rw [h, hE]
      · have := ih rest (i + 1) (by omega) ev h
        omega
    · rw [h1] at h
      subst hl'
      simp only [List.length_cons] at hl
      rcases List.mem_cons.mp h with h | h
      · rw [h, hE]
      · have := ih rest' (i + 2) (by omega) ev h
        omega

/-- The key step of claim C3: given a `fill` step at absolute index `i`
followed by a `press` on the identical selector at `i + 1`, the full run
from index 0 never executes the press as a separate step. -/
lemma no_separate_press (dados : String → Option JVal) (allowOptional : Bool)
    (stepErr : Nat → Option String) (att : Nat → Bool) (steps : List JStep) (i : Nat)
    (s s' : JStep) (post : List JStep) (hdrop : steps.drop i = s :: s' :: post)
    (hf : s.action = JAction.fill) (hp : s'.action = JAction.press)
    (hsel : s'.selector = s.selector) :
    ∀ (n : Nat) (l : List JStep) (i0 : Nat), l.length ≤ n → steps.drop i0 = l → i0 ≤ i →
      Ev.acted (i + 1) ∉ (runStepsAux dados allowOptional stepErr att i0 l).1 := by
  intro n
  induction n with
  | zero =>
    intro l i0 hl hdr hle h
    have hnil : l = [] := List.eq_nil_of_length_eq_zero (by omega)
    subst hnil
    simp [runStepsAux] at h
  | succ n ih =>
    intro l i0 hl hdr hle h
    rcases runStepsAux_shape dados allowOptional stepErr att i0 l with
      ⟨_, h1⟩ | ⟨m, h1⟩ | ⟨_, h1⟩ | ⟨st, rest, E, hl', hE, hnc, h1⟩ |
      ⟨st, nx, rest', E, hl', hE, hfil, hcmb, h1⟩
    · rw [h1] at h; simp at h
    · rw [h1] at h; simp at h
    · rw [h1] at h
      obtain ⟨j', b, hev⟩ := probeGroup_events_probe att l i0 none _ h
      exact Ev.noConfusion hev
    · rw [h1] at h
      subst hl'
      simp only [List.length_cons] at hl
      have hdr1 : steps.drop (i0 + 1) = rest := by
        have hdd : steps.drop (i0 + 1) = (steps.drop i0).drop 1 := by
          rw [List.drop_drop]
        rw [hdd, hdr]
        rfl
      rcases List.mem_cons.mp h with h | h
      · rw [← h] at hE
        simp only [evIdx] at hE
        omega
      · by_cases hi : i0 = i
        · subst hi
          rw [hdrop] at hdr
          injection hdr with hst hrest
          apply hnc
          subst hst
          subst hrest
          exact ⟨hf, hp, hsel⟩
        · exact ih rest (i0 + 1) (by omega) hdr1 (by omega) h
    · rw [h1] at h
      subst hl'
      simp only [List.length_cons] at hl
      have hdr1 : steps.drop (i0 + 1) = nx :: rest' := by
        have hdd : steps.drop (i0 + 1) = (steps.drop i0).drop 1 := by
          rw [List.drop_drop]
        rw [hdd, hdr]
        rfl
      have hdr2 : steps.drop (i0 + 2) = rest' := by
        have hdd : steps.drop (i0 + 2) = (steps.drop (i0 + 1)).drop 1 := by
          rw [List.drop_drop]
        rw [hdd, hdr1]
        rfl
      rcases List.mem_cons.mp h with h | h
      · rw [← h] at hE
        simp only [evIdx] at hE
        omega
      · by_cases hi : i0 = i
        · have hge := runStepsAux_events_ge dados allowOptional stepErr att rest'.length
            rest' (i0 + 2) (Nat.le_refl _) _ h
          simp only [evIdx] at hge
          omega
        · by_cases hi1 : i0 + 1 = i
          · exfalso
            rw [hi1, hdrop] at hdr1
            injection hdr1 with hnx _
            rcases hcmb with ⟨hcp, _⟩
            rw [← hnx, hf] at hcp
            exact JAction.noConfusion hcp
          · exact ih rest' (i0 + 2) (by omega) hdr2 (by omega) h

/-- C3 specification at one combo pair: `s` is the `fill` step at
absolute index `i` and `s'` the `press` step on the identical selector
at `i + 1`.  (1) With the data value present and the combined
interaction succeeding, exactly one combined event is emitted and the
interpreter continues from position `i + 2`; (2) on the skip path
(absent key under the partial-update operation) both steps are skipped
in one transition and the interpreter continues from `i + 2`; (3) in
the whole run from position 0, the press at `i + 1` is never executed
as a separate step. -/
def C3Spec (dados : String → Option JVal) (allowOptional : Bool)
    (stepErr : Nat → Option String) (att : Nat → Bool) (i : Nat)
    (s s' : JStep) (post : List JStep) : Prop :=
  (∀ v, s.key.bind dados = some v → stepErr i = none →
      runStepsAux dados allowOptional stepErr att i (s :: s' :: post)
        = (Ev.combo i :: (runStepsAux dados allowOptional stepErr att (i + 2) post).1,
           (runStepsAux dados allowOptional stepErr att (i + 2) post).2))
  ∧ (s.key.bind dados = none → allowOptional = true →
      runStepsAux dados allowOptional stepErr att i (s :: s' :: post)
        = (Ev.skipped i true :: (runStepsAux dados allowOptional stepErr att (i + 2) post).1,
           (runStepsAux dados allowOptional stepErr att (i + 2) post).2))
  ∧ ∀ steps : List JStep, steps.drop i = s :: s' :: post →
      Ev.acted (i + 1) ∉ (runStepsAux dados allowOptional stepErr att 0 steps).1

/-- C3 (confirmed): a `fill` step immediately followed by a `press` on
the identical selector is executed as exactly one combined interaction
(human-like typing then the paired key press), after which the
interpreter continues from position `i + 2`; the press is never executed
as a separate step, including on the skip path where the fill's key is
absent under the partial-update operation.  (A result-probe-flagged
step is interpreted as a probe, not by its action, hence the
`resultSelector = false` hypothesis on the fill.) -/
theorem c3_fill_press_combo (dados : String → Option JVal) (allowOptional : Bool)
    (stepErr : Nat → Option String) (att : Nat → Bool) (i : Nat) (s s' : JStep)
    (post : List JStep) (hf : s.action = JAction.fill) (hp : s'.action = JAction.press)
    (hsel : s'.selector = s.selector) (hnrs : s.meta.resultSelector = false) :
    C3Spec dados allowOptional stepErr att i s s' post := by
  refine ⟨?_, ?_, ?_⟩
  · intro v hv herr
    simp [runStepsAux, hnrs, hf, hp, hsel, hv, herr]
  · intro hv hao
    simp [runStepsAux, hnrs, hf, hp, hsel, hv, hao]
  · intro steps hdropSteps
    exact no_separate_press dados allowOptional stepErr att steps i s s' post hdropSteps
      hf hp hsel steps.length steps 0 (Nat.le_refl _) (by simp) (by omega)

def c3wFill : JStep := { action := .fill, selector := "a", key := some "k" }

def c3wPress : JStep := { action := .press, selector := "a" }

def c3wDados : String → Option JVal := fun k => if k = "k" then some (.vstr "v") else none

/-- C3 witness: a concrete fill+press pair at position 0. -/
theorem c3_fill_press_combo_witness :
    C3Spec c3wDados false (fun _ => none) (fun _ => false) 0 c3wFill c3wPress [] :=
  c3_fill_press_combo c3wDados false (fun _ => none) (fun _ => false) 0 c3wFill c3wPress []
    rfl rfl rfl rfl

/-! ## Session lifecycle theorems (claims C4, C10) -/

/-- Inversion of `runMapa` once the pre-flight checks pass and neither
`goto` nor the login block throws: the result is determined by the step
loop, and the log records the launch, the logout attempt, the swallowed
cleanup errors and the loop's trace. -/
lemma runMapa_body (url : String) (li : Option JLoginInfo) (dados : String → Option JVal)
    (mapa : JMapa) (o : Oracles)
    (hpc : preflightCheck url li dados o.fsExists mapa = .ok ())
    (hg : o.gotoErr = none) (hle : o.loginErr = none) :
    runMapa url li dados mapa o =
      ((match (runStepsAux dados (mapa.operacao = "editar") o.stepErr o.att 0 mapa.steps).2 with
        | .done rf => (Except.ok rf : Except String (Option Bool))
        | .threw _ m => .error m),
       ⟨true, mapa.logout.isSome, (if mapa.logout.isSome then o.logoutErr else none), true,
        o.closeErr,
        (runStepsAux dados (mapa.operacao = "editar") o.stepErr o.att 0 mapa.steps).1⟩) := by
  cases hrun : runStepsAux dados (mapa.operacao = "editar") o.stepErr o.att 0 mapa.steps with
  | mk t r =>
    cases r with
    | done rf =>
      cases hml : mapa.login <;> simp [runMapa, hpc, hg, hle, hml, hrun]
    | threw j m =>
      cases hml : mapa.login <;> simp [runMapa, hpc, hg, hle, hml, hrun]

/-- C4 specification: whatever errors the logout attempt and the
context close raise, the run surfaces the original step error `m`, the
logout sub-protocol was attempted, and the session teardown ran. -/
def C4Spec (url : String) (li : Option JLoginInfo) (dados : String → Option JVal)
    (mapa : JMapa) (o : Oracles) (m : String) : Prop :=
  ∀ le ce : Option String,
    (runMapa url li dados mapa { o with logoutErr := le, closeErr := ce }).1 = .error m
    ∧ (runMapa url li dados mapa { o with logoutErr := le, closeErr := ce }).2.logoutAttempted
        = true
    ∧ (runMapa url li dados mapa { o with logoutErr := le, closeErr := ce }).2.closeCalled
        = true

/-- C4 (confirmed): when a step throws mid-map and the map declares a
logout selector, the logout attempt still runs, the session teardown
still runs, any failure inside logout or teardown is swallowed (the
outcome does not depend on the cleanup oracles), and the error raised
to the caller is the original step error. -/
theorem c4_cleanup_preserves_error (url : String) (li : Option JLoginInfo)
    (dados : String → Option JVal) (mapa : JMapa) (o : Oracles) (i : Nat) (m : String)
    (t : List Ev)
    (hpc : preflightCheck url li dados o.fsExists mapa = .ok ())
    (hg : o.gotoErr = none) (hle : o.loginErr = none)
    (hloop : runStepsAux dados (mapa.operacao = "editar") o.stepErr o.att 0 mapa.steps
      = (t, .threw i m))
    (hlg : mapa.logout.isSome = true) :
    C4Spec url li dados mapa o m := by
  intro le ce
  have hb := runMapa_body url li dados mapa { o with logoutErr := le, closeErr := ce }
    hpc hg hle
  rw [hb, hloop]
  exact ⟨rfl, hlg, rfl⟩

def c4wMapa : JMapa :=
  { operacao := "cadastrar",
    steps := [{ action := .click, selector := "s" }], logout := some "lo" }

def c4wOracles : Oracles :=
  { fsExists := fun _ => false, stepErr := fun _ => some "boom", att := fun _ => false }

/-- C4 witness: a one-step map whose click throws `boom`; the error
surfaced is `boom` for every combination of cleanup failures. -/
theorem c4_cleanup_preserves_error_witness :
    C4Spec "http://x" none (fun _ => none) c4wMapa c4wOracles "boom" :=
  c4_cleanup_preserves_error "http://x" none (fun _ => none) c4wMapa c4wOracles 0 "boom" []
    rfl rfl rfl rfl rfl

/-- A run of the step loop that never meets a `resultSelector` step
leaves `resultFound` untouched (`none`). -/
lemma runStepsAux_done_none (dados : String → Option JVal) (allowOptional : Bool)
    (stepErr : Nat → Option String) (att : Nat → Bool) :
    ∀ (n : Nat) (l : List JStep) (i : Nat), l.length ≤ n →
      (∀ s ∈ l, s.meta.resultSelector = false) →
      ∀ t rf, runStepsAux dados allowOptional stepErr att i l = (t, .done rf) → rf = none := by
  intro n
  induction n with
  | zero =>
    intro l i hl hnors t rf hrun
    have hnil : l = [] := List.eq_nil_of_length_eq_zero (by omega)
    subst hnil
    simp only [runStepsAux, Prod.mk.injEq] at hrun
    obtain ⟨_, h2⟩ := hrun
    injection h2.symm
  | succ n ih =>
    intro l i hl hnors t rf hrun
    rcases runStepsAux_shape dados allowOptional stepErr att i l with
      ⟨_, h1⟩ | ⟨m, h1⟩ | ⟨hhd, h1⟩ | ⟨st, rest, E, hl', hE, _, h1⟩ |
      ⟨st, nx, rest', E, hl', hE, _, _, h1⟩
    · rw [hrun] at h1
      obtain ⟨_, h2⟩ := Prod.mk.injEq .. ▸ h1
      injection h2
    · rw [hrun] at h1
      obtain ⟨_, h2⟩ := Prod.mk.injEq .. ▸ h1
      exact StepsResult.noConfusion h2
    · cases l with
      | nil => cases hhd
      | cons st rest =>
        have : st.meta.resultSelector = false := hnors st (List.mem_cons_self st rest)
        have hhd' : st.meta.resultSelector = true := hhd
        rw [this] at hhd'
        cases hhd'
    · rw [hrun] at h1
      obtain ⟨_, h2⟩ := Prod.mk.injEq .. ▸ h1
      subst hl'
      simp only [List.length_cons] at hl
      refine ih rest (i + 1) (by omega) (fun s hs => hnors s (List.mem_cons_of_mem st hs))
        (runStepsAux dados allowOptional stepErr att (i + 1) rest).1 rf ?_
      rw [h2]
    · rw [hrun] at h1
      obtain ⟨_, h2⟩ := Prod.mk.injEq .. ▸ h1
      subst hl'
      simp only [List.length_cons] at hl
      refine ih rest' (i + 2) (by omega)
        (fun s hs => hnors s (List.mem_cons_of_mem st (List.mem_cons_of_mem nx hs)))
        (runStepsAux dados allowOptional stepErr att (i + 2) rest').1 rf ?_
      rw [h2]

/-- C10 specification: on every successful run, `consultar` returns the
double-negation coercion of the engine's three-valued `resultFound`;
when the map has no result-probe step at all, `resultFound` is `null`
and `consultar` returns `false` — the caller never observes the
`null` case. -/
def C10Spec (url : String) (li : Option JLoginInfo) (dados : String → Option JVal)
    (mapa : JMapa) (o : Oracles) (rf : Option Bool) : Prop :=
  consultar url li dados mapa o = .ok (jsDoubleNeg rf)
  ∧ ((∀ s ∈ mapa.steps, s.meta.resultSelector = false) →
      rf = none ∧ consultar url li dados mapa o = .ok false)

/-- C10 (confirmed): `consultar` coerces the engine's three-valued
`resultFound` with `!!`, so a map containing no `resultSelector` step
makes `consultar` return `false`, and the caller can never observe the
absent (`null`) case. -/
theorem c10_consultar_coercion (url : String) (li : Option JLoginInfo)
    (dados : String → Option JVal) (mapa : JMapa) (o : Oracles) (rf : Option Bool)
    (h : (runMapa url li dados mapa o).1 = .ok rf) : C10Spec url li dados mapa o rf := by
  have hcons : consultar url li dados mapa o = .ok (jsDoubleNeg rf) := by
    rw [consultar, h]
  refine ⟨hcons, ?_⟩
  intro hnors
  cases hpc : preflightCheck url li dados o.fsExists mapa with
  | error m => simp [runMapa, hpc] at h
  | ok u =>
    cases u
    cases hg : o.gotoErr with
    | some m =>
      cases hml : mapa.login with
      | none => simp [runMapa, hpc, hg, hml] at h
      | some lg => simp [runMapa, hpc, hg, hml] at h
    | none =>
      cases hle : o.loginErr with
      | some m =>
        cases hml : mapa.login with
        | none =>
          cases hrun : runStepsAux dados (mapa.operacao = "editar") o.stepErr o.att 0
            mapa.steps with
          | mk t r =>
            cases r with
            | done rf' =>
              simp only [runMapa, hpc, hg, hle, hml, hrun, Except.ok.injEq] at h
              have hnone := runStepsAux_done_none dados (mapa.operacao = "editar") o.stepErr
                o.att mapa.steps.length mapa.steps 0 (Nat.le_refl _) hnors t rf' hrun
              rw [← h, hnone]
              exact ⟨rfl, by rw [hcons, ← h, hnone]; rfl⟩
            | threw j m' => simp [runMapa, hpc, hg, hle, hml, hrun] at h
        | some lg => simp [runMapa, hpc, hg, hle, hml] at h
      | none =>
        have hb := runMapa_body url li dados mapa o hpc hg hle
        rw [hb] at h
        cases hrun : (runStepsAux dados (mapa.operacao = "editar") o.stepErr o.att 0
          mapa.steps).2 with
        | done rf' =>
          rw [hrun] at h
          simp only [Except.ok.injEq] at h
          have hnone := runStepsAux_done_none dados (mapa.operacao = "editar") o.stepErr
            o.att mapa.steps.length mapa.steps 0 (Nat.le_refl _) hnors
            (runStepsAux dados (mapa.operacao = "editar") o.stepErr o.att 0 mapa.steps).1 rf'
            (by rw [← hrun])
          rw [← h, hnone]
          exact ⟨rfl, by rw [hcons, ← h, hnone]; rfl⟩
        | threw j m' =>
          rw [hrun] at h
          exact Except.noConfusion h

def c10wMapa : JMapa := { operacao := "consultar", steps := [] }

/-- C10 witness: an empty `consultar` map runs successfully with
`resultFound = null`, and `consultar` returns `false`. -/
theorem c10_consultar_coercion_witness :
    C10Spec "http://x" none (fun _ => none) c10wMapa c2wOracles none :=
  c10_consultar_coercion "http://x" none (fun _ => none) c10wMapa c2wOracles none rfl

end Contilogg
